import Mathlib

/-!
# Verification of the secp256k1 reference implementation

This file gives a shallow embedding of the Python reference code
(`tests.py` and `gen_secp256k1_wnaf_table.py`) of the
`fpga_secp256k1_verilog` repository, and proves the specification
claims about it.

Python integers are modelled as `Int`; Python `%` and `//` (floor
semantics) are `Int.fmod` and `Int.fdiv`.  A point is `Option (Int × Int)`
with `none` for the point at infinity, exactly as the Python code uses
`None`.  Functions that can raise a Python exception return
`Except PyErr _`.  The two `while` loops with a data-dependent iteration
count (the extended Euclid loop and the double-and-add loop) are given an
explicit fuel that provably dominates their iteration count, so the
embedded functions are total; the RFC6979 retry loop is genuinely
unbounded in the source, so its embedding takes an explicit fuel
parameter and fuel exhaustion is a distinguished outcome.
-/

set_option maxRecDepth 40000

namespace Secp

/-- Python exceptions raised by the reference code, plus a distinguished
`fuelOut` outcome used only for the unbounded RFC6979 retry loop. -/
inductive PyErr where
  | zeroDivisionError (msg : String)
  | valueError (msg : String)
  | runtimeError (msg : String)
  | assertionError
  | fuelOut
  deriving DecidableEq, Repr

/-- Decidable equality for `Except`, so that concrete runs of the embedded
functions can be checked by `decide`. -/
def exceptDecEq {ε α : Type} [DecidableEq ε] [DecidableEq α] :
    DecidableEq (Except ε α) := fun x y =>
  match x, y with
  | .error a, .error b =>
    if h : a = b then .isTrue (by rw [h]) else .isFalse (fun hc => by cases hc; exact h rfl)
  | .ok a, .ok b =>
    if h : a = b then .isTrue (by rw [h]) else .isFalse (fun hc => by cases hc; exact h rfl)
  | .error _, .ok _ => .isFalse (fun hc => Except.noConfusion hc)
  | .ok _, .error _ => .isFalse (fun hc => Except.noConfusion hc)

instance {ε α : Type} [DecidableEq ε] [DecidableEq α] : DecidableEq (Except ε α) :=
  exceptDecEq

/-- `P = 0xFFFFFFFFFFFFFFFFFFFFFFFFFFFFFFFFFFFFFFFFFFFFFFFFFFFFFFFEFFFFFC2F`. -/
def P : Int := 115792089237316195423570985008687907853269984665640564039457584007908834671663

/-- `N = 0xFFFFFFFFFFFFFFFFFFFFFFFFFFFFFFFEBAAEDCE6AF48A03BBFD25E8CD0364141`. -/
def N : Int := 115792089237316195423570985008687907852837564279074904382605163141518161494337

/-- `GX`. -/
def GX : Int := 55066263022277343669578718895168534326250603453777594175500187360389116729240

/-- `GY`. -/
def GY : Int := 32670510020758816978083085130507043184471273380659243275938904335757337482424

/-- `NEG_GY`. -/
def NEG_GY : Int := 83121579216557378445487899878180864668798711284981320763518679672151497189239

/-- `Point = Optional[Tuple[int, int]]`, `None` = infinity. -/
abbrev Point := Option (Int × Int)

/-- One step of the `while newr != 0` loop of `mod_inv`, iterated on fuel.
State is `(t, newt, r, newr)`; each iteration computes `q = r // newr` and
shifts the two Bezout rows.  Returns the final `(t, r)`. -/
def egcdLoop : Nat → Int → Int → Int → Int → Int × Int
  | 0, t, _, r, _ => (t, r)
  | fuel + 1, t, newt, r, newr =>
    if newr = 0 then (t, r)
    else
      egcdLoop fuel newt (t - (r.fdiv newr) * newt) newr (r - (r.fdiv newr) * newr)

/-- `mod_inv(a, m)`: inverse via extended Euclid; raises `ZeroDivisionError`
on a zero residue or a non-invertible one.  The fuel `(a % m).toNat + 1`
dominates the loop count because `newr` starts at `a % m` and strictly
decreases. -/
def mod_inv (a m : Int) : Except PyErr Int :=
  let a1 := a.fmod m
  if a1 = 0 then .error (.zeroDivisionError "inverse of 0")
  else
    let tr := egcdLoop (a1.toNat + 1) 0 1 m a1
    if tr.2 ≠ 1 then .error (.zeroDivisionError "not invertible")
    else .ok (tr.1.fmod m)

/-- `is_on_curve(Pt)`. -/
def is_on_curve (Pt : Point) : Bool :=
  match Pt with
  | none => true
  | some (x, y) =>
    if ¬ (0 ≤ x ∧ x < P ∧ 0 ≤ y ∧ y < P) then false
    else (y * y - (x * x * x + 7)).fmod P = 0

/-- `point_neg(Pt)`. -/
def point_neg (Pt : Point) : Point :=
  match Pt with
  | none => none
  | some (x, y) => some (x, (-y).fmod P)

/-- `point_double(A)`. -/
def point_double (A : Point) : Except PyErr Point :=
  match A with
  | none => .ok none
  | some (x1, y1) =>
    if y1 = 0 then .ok none
    else do
      let i ← mod_inv (2 * y1) P
      let lam := ((3 * x1 * x1) * i).fmod P
      let x3 := (lam * lam - 2 * x1).fmod P
      let y3 := (lam * (x1 - x3) - y1).fmod P
      .ok (some (x3, y3))

/-- `point_add(A, B)`. -/
def point_add (A B : Point) : Except PyErr Point :=
  match A with
  | none => .ok B
  | some (x1, y1) =>
    match B with
    | none => .ok (some (x1, y1))
    | some (x2, y2) =>
      if x1 = x2 then
        if (y1 + y2).fmod P = 0 then .ok none
        else point_double (some (x1, y1))
      else do
        let i ← mod_inv (x2 - x1) P
        let lam := ((y2 - y1) * i).fmod P
        let x3 := (lam * lam - x1 - x2).fmod P
        let y3 := (lam * (x1 - x3) - y1).fmod P
        .ok (some (x3, y3))

/-- The `while k > 0` loop of `scalar_mul`, iterated on fuel.  The fuel `k`
dominates the loop count (`k` at least halves each iteration). -/
def smLoop : Nat → Nat → Point → Point → Except PyErr Point
  | 0, _, R, _ => .ok R
  | fuel + 1, k, R, Q =>
    if k = 0 then .ok R
    else do
      let R1 ← if k % 2 = 1 then point_add R Q else .ok R
      let Q1 ← point_double Q
      smLoop fuel (k / 2) R1 Q1

/-- `scalar_mul(k, Pt)`: double-and-add after reducing `k` mod `N`. -/
def scalar_mul (k : Int) (Pt : Point) : Except PyErr Point :=
  let k1 := (k.fmod N).toNat
  if k1 = 0 ∨ Pt = none then .ok none
  else smLoop (k1 + 1) k1 none Pt

/-! ## Modular exponentiation and primality certificates

`powM a e n` computes `a ^ e % n` by binary exponentiation, so that the
kernel can evaluate powers with 256-bit exponents; it also embeds
Python's built-in `pow(a, e, n)` (for nonnegative arguments), which
`gen_secp256k1_wnaf_table.py` uses for Fermat inversion.  On top of it,
`prime_of_cert` packages Mathlib's `lucas_primality` into a checkable
Pratt-style certificate, which we instantiate to prove that the curve
constants `P` and `N` are prime. -/

/-- Binary modular exponentiation, recursing on fuel; fuel `e + 1`
always suffices. -/
def powModAux : Nat → Nat → Nat → Nat → Nat
  | 0, _, _, n => 1 % n
  | fuel + 1, a, e, n =>
    if e = 0 then 1 % n
    else
      let h := powModAux fuel (a * a % n) (e / 2) n
      if e % 2 = 1 then h * a % n else h

/-- `a ^ e % n` by binary exponentiation. -/
def powM (a e n : Nat) : Nat := powModAux (e + 1) a e n

/-- Product of a list of prime powers. -/
def prodPow : List (Nat × Nat) → Nat
  | [] => 1
  | pe :: l => pe.1 ^ pe.2 * prodPow l

/-- `P` as a natural number. -/
def Pn : Nat := 115792089237316195423570985008687907853269984665640564039457584007908834671663

/-- `N` as a natural number. -/
def Nn : Nat := 115792089237316195423570985008687907852837564279074904382605163141518161494337

/-- The value `mod_inv a m` returns when it succeeds. -/
def modInvVal (a m : Int) : Int :=
  ((egcdLoop ((a.fmod m).toNat + 1) 0 1 m (a.fmod m)).1).fmod m

/-- The secp256k1 curve y² = x³ + 7 over the field `ZMod Pn`, as a
Mathlib Weierstrass curve; used only in proofs, to import the group law. -/
def secp : WeierstrassCurve.Affine (ZMod Pn) := ⟨0, 0, 0, 0, 7⟩

/-- The Int-pair representation of a Mathlib point: infinity becomes
`none`, an affine point becomes the pair of its coordinates' canonical
representatives in [0, P). -/
def fromW : secp.Point → Point
  | .zero => none
  | @WeierstrassCurve.Affine.Point.some _ _ _ x y _ => some ((x.val : Int), (y.val : Int))

namespace Gen

/-- `inv(a) = pow(a, P-2, P)` from `gen_secp256k1_wnaf_table.py`; Python's
three-argument `pow` is modular exponentiation of the residue of `a`,
computed here by `powM`. -/
def inv (a : Int) : Int := ((powM (a.fmod P).toNat (Pn - 2) Pn : Nat) : Int)

/-- `dbl(P1)` from the table generator. -/
def dbl (P1 : Point) : Point :=
  match P1 with
  | none => none
  | some (x1, y1) =>
    if y1 = 0 then none
    else
      let lam := ((3 * x1 * x1) * inv ((2 * y1).fmod P)).fmod P
      let x3 := (lam * lam - 2 * x1).fmod P
      let y3 := (lam * (x1 - x3) - y1).fmod P
      some (x3, y3)

/-- `add(P1, P2)` from the table generator. -/
def add (P1 P2 : Point) : Point :=
  match P1 with
  | none => P2
  | some (x1, y1) =>
    match P2 with
    | none => some (x1, y1)
    | some (x2, y2) =>
      if x1 = x2 then
        if (y1 + y2).fmod P = 0 then none
        else dbl (some (x1, y1))
      else
        let lam := ((y2 - y1) * inv ((x2 - x1).fmod P)).fmod P
        let x3 := (lam * lam - x1 - x2).fmod P
        let y3 := (lam * (x1 - x3) - y1).fmod P
        some (x3, y3)

/-- The `for _ in range(num)` loop of `gen_table`: append `cur`, then
`cur = add(cur, twoG)`. -/
def gen_tableLoop : Nat → Point → Point → List Point
  | 0, _, _ => []
  | n + 1, cur, twoG => cur :: gen_tableLoop n (add cur twoG) twoG

/-- `gen_table(W)`. -/
def gen_table (W : Nat) : List Point :=
  let num := 1 <<< (W - 1)
  let twoG := dbl (some (GX, GY))
  gen_tableLoop num (some (GX, GY)) twoG

end Gen

/-- Modelled from the spec (§4.3, claim C3): binary double-and-add over
an explicit list of bits, least-significant first: maintain accumulator
R (initially infinity) and addend Q (initially p); for each bit, if set,
R = add(R, Q); then Q = double(Q). -/
def scalarMulBits : List Bool → Point → Point → Except PyErr Point
  | [], R, _ => .ok R
  | true :: bs, R, Q => do
    let R1 ← point_add R Q
    let Q1 ← point_double Q
    scalarMulBits bs R1 Q1
  | false :: bs, R, Q => do
    let Q1 ← point_double Q
    scalarMulBits bs R Q1

/-- Double-and-add ladder built on the generator's total point
operations; it computes the same points as `smLoop` but with Fermat
inversion, which the kernel evaluates much faster than extended Euclid.
Used only as an evaluation vehicle inside proofs. -/
def genLadder : Nat → Nat → Point → Point → Point
  | 0, _, R, _ => R
  | fuel + 1, k, R, Q =>
    if k = 0 then R
    else genLadder fuel (k / 2) (if k % 2 = 1 then Gen.add R Q else R) (Gen.dbl Q)

/-! ## SHA-256, HMAC-SHA256, RFC6979 and ECDSA

`hashlib.sha256` and `hmac` are Python standard-library primitives, not
part of the repository; they are embedded here directly from FIPS 180-4
and RFC 2104, operating on byte lists (each entry an integer in
[0, 256)). -/

/-- Byte strings as lists of naturals. -/
abbrev Bytes := List Nat

/-- Big-endian encoding of `v` on `n` bytes (`int.to_bytes(n, "big")`
for in-range values). -/
def toBytesBE : Nat → Nat → Bytes
  | 0, _ => []
  | n + 1, v => toBytesBE n (v / 256) ++ [v % 256]

/-- Big-endian decoding (`int.from_bytes(b, "big")`). -/
def fromBytesBE (l : Bytes) : Nat :=
  l.foldl (fun acc b => acc * 256 + b) 0

/-- 32-bit rotate right. -/
def rotr (k n : Nat) : Nat :=
  ((n >>> k) ||| (n <<< (32 - k))) % 4294967296

/-- The SHA-256 round constants. -/
def sha256K : List Nat :=
  [1116352408, 1899447441, 3049323471, 3921009573, 961987163, 1508970993,
   2453635748, 2870763221, 3624381080, 310598401, 607225278, 1426881987,
   1925078388, 2162078206, 2614888103, 3248222580, 3835390401, 4022224774,
   264347078, 604807628, 770255983, 1249150122, 1555081692, 1996064986,
   2554220882, 2821834349, 2952996808, 3210313671, 3336571891, 3584528711,
   113926993, 338241895, 666307205, 773529912, 1294757372, 1396182291,
   1695183700, 1986661051, 2177026350, 2456956037, 2730485921, 2820302411,
   3259730800, 3345764771, 3516065817, 3600352804, 4094571909, 275423344,
   430227734, 506948616, 659060556, 883997877, 958139571, 1322822218,
   1537002063, 1747873779, 1955562222, 2024104815, 2227730452, 2361852424,
   2428436474, 2756734187, 3204031479, 3329325298]

/-- The SHA-256 initial hash state. -/
def sha256H0 : List Nat :=
  [1779033703, 3144134277, 1013904242, 2773480762,
   1359893119, 2600822924, 528734635, 1541459225]

/-- Group a byte list into big-endian 32-bit words. -/
def bytesToWords : Bytes → List Nat
  | b0 :: b1 :: b2 :: b3 :: rest =>
    (((b0 * 256 + b1) * 256 + b2) * 256 + b3) :: bytesToWords rest
  | _ => []

/-- Extend 16 message words to 64 (the SHA-256 message schedule);
`fuel` counts the words still to append (48 from the outside). -/
def schedExtend : Nat → List Nat → List Nat
  | 0, w => w
  | fuel + 1, w =>
    let n := w.length
    let s0r := w.getD (n - 15) 0
    let s1r := w.getD (n - 2) 0
    let s0 := (rotr 7 s0r) ^^^ (rotr 18 s0r) ^^^ (s0r >>> 3)
    let s1 := (rotr 17 s1r) ^^^ (rotr 19 s1r) ^^^ (s1r >>> 10)
    schedExtend fuel (w ++ [(w.getD (n - 16) 0 + s0 + w.getD (n - 7) 0 + s1) % 4294967296])

/-- One round of the SHA-256 compression function; the state is
(a, b, c, d, e, f, g, h) and `kw` the round constant plus schedule word. -/
def sha256Round (st : Nat × Nat × Nat × Nat × Nat × Nat × Nat × Nat) (kw : Nat × Nat) :
    Nat × Nat × Nat × Nat × Nat × Nat × Nat × Nat :=
  match st with
  | (a, b, c, d, e, f, g, h) =>
    let S1 := (rotr 6 e) ^^^ (rotr 11 e) ^^^ (rotr 25 e)
    let ch := (e &&& f) ^^^ ((e ^^^ 4294967295) &&& g)
    let temp1 := (h + S1 + ch + kw.1 + kw.2) % 4294967296
    let S0 := (rotr 2 a) ^^^ (rotr 13 a) ^^^ (rotr 22 a)
    let maj := (a &&& b) ^^^ (a &&& c) ^^^ (b &&& c)
    let temp2 := (S0 + maj) % 4294967296
    ((temp1 + temp2) % 4294967296, a, b, c, (d + temp1) % 4294967296, e, f, g)

/-- Compress one 64-byte chunk into the running state (8 words). -/
def sha256Chunk (H : List Nat) (chunk : Bytes) : List Nat :=
  let ws := schedExtend 48 (bytesToWords chunk)
  let init : Nat × Nat × Nat × Nat × Nat × Nat × Nat × Nat :=
    (H.getD 0 0, H.getD 1 0, H.getD 2 0, H.getD 3 0,
     H.getD 4 0, H.getD 5 0, H.getD 6 0, H.getD 7 0)
  match (sha256K.zip ws).foldl sha256Round init with
  | (a, b, c, d, e, f, g, h) =>
    [(H.getD 0 0 + a) % 4294967296, (H.getD 1 0 + b) % 4294967296,
     (H.getD 2 0 + c) % 4294967296, (H.getD 3 0 + d) % 4294967296,
     (H.getD 4 0 + e) % 4294967296, (H.getD 5 0 + f) % 4294967296,
     (H.getD 6 0 + g) % 4294967296, (H.getD 7 0 + h) % 4294967296]

/-- Split into 64-byte chunks; fuel bounds the number of chunks. -/
def toChunks : Nat → Bytes → List Bytes
  | 0, _ => []
  | fuel + 1, l => if l = [] then [] else l.take 64 :: toChunks fuel (l.drop 64)

/-- SHA-256 of a byte list, as its 32-byte big-endian digest. -/
def sha256 (msg : Bytes) : Bytes :=
  let l := msg.length
  let padZeros := (120 - ((l + 1) % 64)) % 64
  let padded := msg ++ [128] ++ List.replicate padZeros 0 ++ toBytesBE 8 (8 * l)
  let final := (toChunks (padded.length) padded).foldl sha256Chunk sha256H0
  final.foldr (fun w acc => toBytesBE 4 w ++ acc) []

/-- HMAC-SHA256 (RFC 2104) with a 64-byte block size. -/
def hmac_sha256 (key msg : Bytes) : Bytes :=
  let key1 := if 64 < key.length then sha256 key else key
  let kp := key1 ++ List.replicate (64 - key1.length) 0
  let ipad := kp.map (fun b => b ^^^ 0x36)
  let opad := kp.map (fun b => b ^^^ 0x5c)
  sha256 (opad ++ sha256 (ipad ++ msg))

/-- Bit length of a natural number (`int.bit_length()`), by fuel. -/
def bitLenAux : Nat → Nat → Nat
  | 0, _ => 0
  | fuel + 1, n => if n = 0 then 0 else bitLenAux fuel (n / 2) + 1

/-- `N.bit_length()`. -/
def qlen : Nat := bitLenAux Nn Nn

/-- `rolen = (qlen + 7) // 8`. -/
def rolen : Nat := (qlen + 7) / 8

/-- `bits2int` of RFC6979 for the curve order `N`. -/
def bits2int (b : Bytes) : Nat :=
  let i := fromBytesBE b
  let blen := b.length * 8
  if qlen < blen then i >>> (blen - qlen) else i

/-- `int2octets`. -/
def int2octets (v : Nat) : Bytes := toBytesBE rolen v

/-- `bits2octets`. -/
def bits2octets (b : Bytes) : Bytes := int2octets (bits2int b % Nn)

/-- The `while len(T) < rolen` inner loop of `rfc6979_k`: keep appending
`V = HMAC(K, V)` to `T`; each round appends 32 bytes so fuel `rolen`
suffices.  Returns the final `(T, V)`. -/
def fillT : Nat → Bytes → Bytes → Bytes → Bytes × Bytes
  | 0, _, V, T => (T, V)
  | fuel + 1, K, V, T =>
    if rolen ≤ T.length then (T, V)
    else
      let V1 := hmac_sha256 K V
      fillT fuel K V1 (T ++ V1)

/-- The outer retry loop of `rfc6979_k`; the source's loop is
`while True`, so the embedding takes explicit fuel and reports
exhaustion as `fuelOut`. -/
def rfcLoop : Nat → Bytes → Bytes → Except PyErr Int
  | 0, _, _ => .error .fuelOut
  | fuel + 1, K, V =>
    let TV := fillT rolen K V []
    let T := TV.1
    let V1 := TV.2
    let k := bits2int T
    if 1 ≤ k ∧ k < Nn then .ok ((k : Nat) : Int)
    else
      let K1 := hmac_sha256 K (V1 ++ [0])
      let V2 := hmac_sha256 K1 V1
      rfcLoop fuel K1 V2

/-- `rfc6979_k(privkey, h1)`. -/
def rfc6979_k (privkey : Int) (h1 : Bytes) (fuel : Nat) : Except PyErr Int :=
  let x := toBytesBE 32 privkey.toNat
  let V0 : Bytes := List.replicate 32 1
  let K0 : Bytes := List.replicate 32 0
  let K1 := hmac_sha256 K0 (V0 ++ [0] ++ x ++ bits2octets h1)
  let V1 := hmac_sha256 K1 V0
  let K2 := hmac_sha256 K1 (V1 ++ [1] ++ x ++ bits2octets h1)
  let V2 := hmac_sha256 K2 V1
  rfcLoop fuel K2 V2

/-- `ecdsa_sign(privkey, msg)`; `fuel` bounds the RFC6979 retry loop. -/
def ecdsa_sign (fuel : Nat) (privkey : Int) (msg : Bytes) : Except PyErr (Int × Int) :=
  if ¬ (1 ≤ privkey ∧ privkey < N) then .error (.valueError "bad privkey")
  else do
    let z := sha256 msg
    let k ← rfc6979_k privkey z fuel
    let R ← scalar_mul k (some (GX, GY))
    match R with
    | none => .error .assertionError
    | some Rxy =>
      let r := Rxy.1.fmod N
      if r = 0 then .error (.runtimeError "r=0, retry (shouldn't with RFC6979 normally)")
      else do
        let w ← mod_inv k N
        let s := (w * (((fromBytesBE z : Nat) : Int).fmod N + r * privkey)).fmod N
        if s = 0 then .error (.runtimeError "s=0, retry")
        else .ok (r, s)

/-- `ecdsa_verify(pub, msg, sig)`. -/
def ecdsa_verify (pub : Point) (msg : Bytes) (sig : Int × Int) : Except PyErr Bool :=
  if pub = none ∨ ¬ is_on_curve pub then .ok false
  else
    if ¬ (1 ≤ sig.1 ∧ sig.1 < N ∧ 1 ≤ sig.2 ∧ sig.2 < N) then .ok false
    else do
      let z := ((fromBytesBE (sha256 msg) : Nat) : Int).fmod N
      let w ← mod_inv sig.2 N
      let u1 := (z * w).fmod N
      let u2 := (sig.1 * w).fmod N
      let P1 ← scalar_mul u1 (some (GX, GY))
      let P2 ← scalar_mul u2 pub
      let X ← point_add P1 P2
      match X with
      | none => .ok false
      | some Xxy => .ok (Xxy.1.fmod N = sig.1)

theorem powModAux_correct :
    ∀ fuel a e n, e < fuel → powModAux fuel a e n = a ^ e % n := by
  intro fuel
  induction fuel with
  | zero => intro a e n h; omega
  | succ fuel ih =>
    intro a e n h
    by_cases he : e = 0
    · simp [powModAux, he]
    · have hlt : e / 2 < fuel := by omega
      have hrec := ih (a * a % n) (e / 2) n hlt
      have hsq : (a * a % n) ^ (e / 2) % n = (a * a) ^ (e / 2) % n :=
        (Nat.pow_mod (a * a) (e / 2) n).symm
      have hpow : (a * a) ^ (e / 2) = a ^ (2 * (e / 2)) := by
        rw [two_mul, pow_add, ← mul_pow]
      rcases Nat.even_or_odd e with hpar | hpar
      · have h2 : e % 2 = 0 := Nat.even_iff.mp hpar
        have he2 : 2 * (e / 2) = e := by omega
        simp only [powModAux, he, if_false, h2]
        rw [hrec, hsq, hpow, he2]
        simp
      · have h2 : e % 2 = 1 := Nat.odd_iff.mp hpar
        have he2 : 2 * (e / 2) + 1 = e := by omega
        simp only [powModAux, he, if_false, h2, if_true]
        rw [hrec, hsq, Nat.mod_mul_mod, hpow, ← pow_succ, he2]

theorem powM_correct (a e n : Nat) : powM a e n = a ^ e % n :=
  powModAux_correct (e + 1) a e n (Nat.lt_succ_self e)

theorem powM_lt (a e n : Nat) (hn : 0 < n) : powM a e n < n := by
  rw [powM_correct]
  exact Nat.mod_lt _ hn

theorem powM_cast_zmod (a e n : Nat) : ((powM a e n : Nat) : ZMod n) = (a : ZMod n) ^ e := by
  rw [powM_correct, ZMod.natCast_mod, Nat.cast_pow]

theorem powM_eq_one_iff (a e n : Nat) (hn : 2 ≤ n) :
    powM a e n = 1 ↔ ((a : ZMod n)) ^ e = 1 := by
  haveI : NeZero n := ⟨by omega⟩
  haveI : Fact (1 < n) := ⟨by omega⟩
  rw [powM_correct]
  constructor
  · intro h
    have : (((a ^ e % n : ℕ) : ZMod n)) = ((1 : ℕ) : ZMod n) := by rw [h]
    rwa [ZMod.natCast_mod, Nat.cast_pow, Nat.cast_one] at this
  · intro h
    have hc : (((a ^ e % n : ℕ) : ZMod n)) = 1 := by
      rw [ZMod.natCast_mod, Nat.cast_pow, h]
    have hval := congrArg ZMod.val hc
    rwa [ZMod.val_cast_of_lt (Nat.mod_lt _ (by omega)), ZMod.val_one] at hval

theorem prime_mem_of_dvd_prodPow :
    ∀ (l : List (Nat × Nat)) {q : Nat}, q.Prime →
      (∀ pe ∈ l, Nat.Prime pe.1) → q ∣ prodPow l → q ∈ l.map Prod.fst := by
  intro l
  induction l with
  | nil =>
    intro q hq _ hdvd
    have h1 : q = 1 := Nat.dvd_one.mp (by simpa [prodPow] using hdvd)
    exact absurd (h1 ▸ hq) Nat.not_prime_one
  | cons pe l ih =>
    intro q hq hl hdvd
    rcases (Nat.Prime.dvd_mul hq).mp hdvd with h | h
    · have hp : pe.1.Prime := hl pe (List.mem_cons_self pe l)
      have : q = pe.1 :=
        (Nat.prime_dvd_prime_iff_eq hq hp).mp (hq.dvd_of_dvd_pow h)
      simp [this]
    · have := ih hq (fun x hx => hl x (List.mem_cons_of_mem pe hx)) h
      simp [this]

/-- Lucas primality from a Pratt-style certificate: a witness `a`, and a
complete prime-power factorisation `l` of `n - 1`. -/
theorem prime_of_cert (n a : Nat) (l : List (Nat × Nat)) (hn : 2 ≤ n)
    (hl : ∀ pe ∈ l, Nat.Prime pe.1)
    (hfac : prodPow l = n - 1)
    (h1 : powM a (n - 1) n = 1)
    (hq : ∀ q ∈ l.map Prod.fst, powM a ((n - 1) / q) n ≠ 1) : n.Prime := by
  refine lucas_primality n (a : ZMod n) ((powM_eq_one_iff a (n - 1) n hn).mp h1) ?_
  intro q hqp hdvd hone
  exact hq q (prime_mem_of_dvd_prodPow l hqp hl (hfac ▸ hdvd))
    ((powM_eq_one_iff a ((n - 1) / q) n hn).mpr hone)

/-! ### Pratt certificate chain for `P`

`P - 1 = 2 · 3 · 7 · 13441 · F72` where
`F72 = 205115282021455665897114700593932402728804164701536103180137503955397371`,
`F72 - 1 = 2 · 3 · 5 · 29² · 31 · 7723 · g39 · h24` with
`g39 = 255515944373312847190720520512484175977` and
`h24 = 132896956044521568488119`. -/

theorem prime_1206781 : Nat.Prime 1206781 := by
  refine prime_of_cert _ 10 [(2,2),(3,1),(5,1),(20113,1)]
    (by norm_num) ?_ (by decide) (by decide) ?_
  · intro pe h
    fin_cases h <;> norm_num
  · intro q hq
    fin_cases hq <;> decide

theorem prime_7240687 : Nat.Prime 7240687 := by
  refine prime_of_cert _ 3 [(2,1),(3,1),(1206781,1)]
    (by norm_num) ?_ (by decide) (by decide) ?_
  · intro pe h
    fin_cases h <;> first
      | exact prime_1206781
      | norm_num
  · intro q hq
    fin_cases hq <;> decide

theorem prime_13331831 : Nat.Prime 13331831 := by
  refine prime_of_cert _ 13 [(2,1),(5,1),(971,1),(1373,1)]
    (by norm_num) ?_ (by decide) (by decide) ?_
  · intro pe h
    fin_cases h <;> norm_num
  · intro q hq
    fin_cases hq <;> decide

theorem prime_107590001 : Nat.Prime 107590001 := by
  refine prime_of_cert _ 3 [(2,4),(5,4),(7,1),(29,1),(53,1)]
    (by norm_num) ?_ (by decide) (by decide) ?_
  · intro pe h
    fin_cases h <;> norm_num
  · intro q hq
    fin_cases hq <;> decide

theorem prime_44706919 : Nat.Prime 44706919 := by
  refine prime_of_cert _ 6 [(2,1),(3,1),(797,1),(9349,1)]
    (by norm_num) ?_ (by decide) (by decide) ?_
  · intro pe h
    fin_cases h <;> norm_num
  · intro q hq
    fin_cases hq <;> decide

theorem prime_4681609 : Nat.Prime 4681609 := by
  refine prime_of_cert _ 23 [(2,3),(3,1),(97,1),(2011,1)]
    (by norm_num) ?_ (by decide) (by decide) ?_
  · intro pe h
    fin_cases h <;> norm_num
  · intro q hq
    fin_cases hq <;> decide

theorem prime_173378833005251801 : Nat.Prime 173378833005251801 := by
  refine prime_of_cert _ 6 [(2,3),(5,2),(2621,1),(24809,1),(13331831,1)]
    (by norm_num) ?_ (by decide) (by decide) ?_
  · intro pe h
    fin_cases h <;> first
      | exact prime_13331831
      | norm_num
  · intro q hq
    fin_cases hq <;> decide

theorem prime_22149492674086928081353 : Nat.Prime 22149492674086928081353 := by
  refine prime_of_cert _ 5 [(2,3),(3,1),(5323,1),(173378833005251801,1)]
    (by norm_num) ?_ (by decide) (by decide) ?_
  · intro pe h
    fin_cases h <;> first
      | exact prime_173378833005251801
      | norm_num
  · intro q hq
    fin_cases hq <;> decide

theorem prime_132896956044521568488119 : Nat.Prime 132896956044521568488119 := by
  refine prime_of_cert _ 6 [(2,1),(3,1),(22149492674086928081353,1)]
    (by norm_num) ?_ (by decide) (by decide) ?_
  · intro pe h
    fin_cases h <;> first
      | exact prime_22149492674086928081353
      | norm_num
  · intro q hq
    fin_cases hq <;> decide

theorem prime_255515944373312847190720520512484175977 :
    Nat.Prime 255515944373312847190720520512484175977 := by
  refine prime_of_cert _ 3
    [(2,3),(7,2),(11,1),(1627,1),(2657,1),(4423,1),(41201,1),(96557,1),(7240687,1),(107590001,1)]
    (by norm_num) ?_ (by decide) (by decide) ?_
  · intro pe h
    fin_cases h <;> first
      | exact prime_7240687
      | exact prime_107590001
      | norm_num
  · intro q hq
    fin_cases hq <;> decide

theorem prime_F72 :
    Nat.Prime 205115282021455665897114700593932402728804164701536103180137503955397371 := by
  refine prime_of_cert _ 10
    [(2,1),(3,1),(5,1),(29,2),(31,1),(7723,1),
     (255515944373312847190720520512484175977,1),(132896956044521568488119,1)]
    (by norm_num) ?_ (by decide) (by decide) ?_
  · intro pe h
    fin_cases h <;> first
      | exact prime_255515944373312847190720520512484175977
      | exact prime_132896956044521568488119
      | norm_num
  · intro q hq
    fin_cases hq <;> decide

theorem prime_Pn :
    Nat.Prime 115792089237316195423570985008687907853269984665640564039457584007908834671663 := by
  refine prime_of_cert _ 3
    [(2,1),(3,1),(7,1),(13441,1),
     (205115282021455665897114700593932402728804164701536103180137503955397371,1)]
    (by norm_num) ?_ (by decide) (by decide) ?_
  · intro pe h
    fin_cases h <;> first
      | exact prime_F72
      | norm_num
  · intro q hq
    fin_cases hq <;> decide

/-! ### Pratt certificate chain for `N`

`N - 1 = 2⁶ · 3 · 149 · 631 · q17 · q21 · q33` with
`q17 = 107361793816595537`, `q21 = 174723607534414371449`,
`q33 = 341948486974166000522343609283189`. -/

theorem prime_545358713 : Nat.Prime 545358713 := by
  refine prime_of_cert _ 5 [(2,3),(41,1),(59,1),(28181,1)]
    (by norm_num) ?_ (by decide) (by decide) ?_
  · intro pe h
    fin_cases h <;> norm_num
  · intro q hq
    fin_cases hq <;> decide

theorem prime_297159362677 : Nat.Prime 297159362677 := by
  refine prime_of_cert _ 2 [(2,2),(3,2),(11,1),(461,1),(1627771,1)]
    (by norm_num) ?_ (by decide) (by decide) ?_
  · intro pe h
    fin_cases h <;> norm_num
  · intro q hq
    fin_cases hq <;> decide

theorem prime_29047611873442575647497758179 :
    Nat.Prime 29047611873442575647497758179 := by
  refine prime_of_cert _ 2 [(2,1),(293,1),(305873,1),(545358713,1),(297159362677,1)]
    (by norm_num) ?_ (by decide) (by decide) ?_
  · intro pe h
    fin_cases h <;> first
      | exact prime_545358713
      | exact prime_297159362677
      | norm_num
  · intro q hq
    fin_cases hq <;> decide

theorem prime_341948486974166000522343609283189 :
    Nat.Prime 341948486974166000522343609283189 := by
  refine prime_of_cert _ 2 [(2,2),(3,3),(109,1),(29047611873442575647497758179,1)]
    (by norm_num) ?_ (by decide) (by decide) ?_
  · intro pe h
    fin_cases h <;> first
      | exact prime_29047611873442575647497758179
      | norm_num
  · intro q hq
    fin_cases hq <;> decide

theorem prime_174723607534414371449 : Nat.Prime 174723607534414371449 := by
  refine prime_of_cert _ 3 [(2,3),(17,1),(59,1),(4051,1),(120233,1),(44706919,1)]
    (by norm_num) ?_ (by decide) (by decide) ?_
  · intro pe h
    fin_cases h <;> first
      | exact prime_44706919
      | norm_num
  · intro q hq
    fin_cases hq <;> decide

theorem prime_107361793816595537 : Nat.Prime 107361793816595537 := by
  refine prime_of_cert _ 3 [(2,4),(16699,1),(85831,1),(4681609,1)]
    (by norm_num) ?_ (by decide) (by decide) ?_
  · intro pe h
    fin_cases h <;> first
      | exact prime_4681609
      | norm_num
  · intro q hq
    fin_cases hq <;> decide

theorem prime_Nn :
    Nat.Prime 115792089237316195423570985008687907852837564279074904382605163141518161494337 := by
  refine prime_of_cert _ 7
    [(2,6),(3,1),(149,1),(631,1),(107361793816595537,1),
     (174723607534414371449,1),(341948486974166000522343609283189,1)]
    (by norm_num) ?_ (by decide) (by decide) ?_
  · intro pe h
    fin_cases h <;> first
      | exact prime_107361793816595537
      | exact prime_174723607534414371449
      | exact prime_341948486974166000522343609283189
      | norm_num
  · intro q hq
    fin_cases hq <;> decide

theorem Pn_prime : Nat.Prime Pn := prime_Pn

theorem Nn_prime : Nat.Prime Nn := prime_Nn

instance : Fact (Nat.Prime Pn) := ⟨Pn_prime⟩

instance : Fact (Nat.Prime Nn) := ⟨Nn_prime⟩

theorem Pn_cast : (Pn : Int) = P := rfl

theorem Nn_cast : (Nn : Int) = N := rfl

/-! ## Correctness of the extended-Euclid loop in `mod_inv` -/

theorem int_toNat_emod (r newr : Int) (hnewr : 0 < newr) (hr : 0 ≤ r) :
    (r % newr).toNat = r.toNat % newr.toNat := by
  have h1 : 0 ≤ r % newr := Int.emod_nonneg r hnewr.ne'
  have h2 : ((r % newr).toNat : Int) = ((r.toNat % newr.toNat : Nat) : Int) := by
    rw [Int.toNat_of_nonneg h1]
    push_cast
    rw [Int.toNat_of_nonneg hr, Int.toNat_of_nonneg hnewr.le]
  exact_mod_cast h2

theorem int_gcd_step (r newr : Int) (hnewr : 0 < newr) (hr : 0 ≤ r) :
    Nat.gcd newr.toNat (r % newr).toNat = Nat.gcd r.toNat newr.toNat := by
  rw [int_toNat_emod r newr hnewr hr, Nat.gcd_comm r.toNat newr.toNat]
  conv_rhs => rw [Nat.gcd_rec]
  exact Nat.gcd_comm _ _

theorem egcdLoop_spec (m a1 : Int) :
    ∀ (fuel : Nat) (t newt r newr : Int), 0 ≤ r → 0 ≤ newr → newr.toNat ≤ fuel →
      a1 * t ≡ r [ZMOD m] → a1 * newt ≡ newr [ZMOD m] →
      (egcdLoop fuel t newt r newr).2 = (Nat.gcd r.toNat newr.toNat : Int) ∧
        a1 * (egcdLoop fuel t newt r newr).1 ≡ (Nat.gcd r.toNat newr.toNat : Int) [ZMOD m] := by
  intro fuel
  induction fuel with
  | zero =>
    intro t newt r newr hr hnewr hfuel inv1 inv2
    have h0 : newr = 0 := by omega
    subst h0
    have : (Nat.gcd r.toNat (0 : Int).toNat : Int) = r := by
      simp [Int.toNat_of_nonneg hr]
    rw [this]
    exact ⟨rfl, inv1⟩
  | succ fuel ih =>
    intro t newt r newr hr hnewr hfuel inv1 inv2
    by_cases h0 : newr = 0
    · subst h0
      have : (Nat.gcd r.toNat (0 : Int).toNat : Int) = r := by
        simp [Int.toNat_of_nonneg hr]
      rw [this]
      simp only [egcdLoop, if_pos rfl]
      exact ⟨rfl, inv1⟩
    · have hpos : 0 < newr := lt_of_le_of_ne hnewr (Ne.symm h0)
      have hq : r - r.fdiv newr * newr = r % newr := by
        rw [Int.fdiv_eq_ediv _ hpos.le, Int.emod_def]
        ring
      have hrec1 : 0 ≤ r % newr := Int.emod_nonneg r h0
      have hrec2 : (r % newr).toNat ≤ fuel := by
        have := Int.emod_lt_of_pos r hpos
        omega
      have hinv3 : a1 * (t - r.fdiv newr * newt) ≡ r - r.fdiv newr * newr [ZMOD m] := by
        have h := Int.ModEq.sub inv1 (Int.ModEq.mul_left (r.fdiv newr) inv2)
        rw [show a1 * t - r.fdiv newr * (a1 * newt) = a1 * (t - r.fdiv newr * newt) from by ring]
          at h
        exact h
      simp only [egcdLoop, if_neg h0]
      rw [hq] at hinv3
      rw [hq, ← int_gcd_step r newr hpos hr]
      exact ih newt (t - r.fdiv newr * newt) newr (r % newr)
        hnewr hrec1 hrec2 inv2 hinv3

theorem mod_inv_ok_of_gcd_one (a m : Int) (hm : 0 < m) (h0 : a.fmod m ≠ 0)
    (hg : Nat.gcd m.toNat (a.fmod m).toNat = 1) :
    mod_inv a m = .ok (modInvVal a m) ∧ 0 ≤ modInvVal a m ∧ modInvVal a m < m ∧
      a * modInvVal a m ≡ 1 [ZMOD m] := by
  have hfe : a.fmod m = a % m := Int.fmod_eq_emod a hm.le
  have ha1 : 0 ≤ a.fmod m := hfe ▸ Int.emod_nonneg a hm.ne'
  have inv1 : a.fmod m * (0 : Int) ≡ m [ZMOD m] := by
    simp [Int.ModEq, Int.emod_self]
  have inv2 : a.fmod m * (1 : Int) ≡ a.fmod m [ZMOD m] := by
    simp
  have hspec := egcdLoop_spec m (a.fmod m) ((a.fmod m).toNat + 1) 0 1 m (a.fmod m)
    hm.le ha1 (by omega) inv1 inv2
  rw [hg] at hspec
  have h2 : (egcdLoop ((a.fmod m).toNat + 1) 0 1 m (a.fmod m)).2 = 1 := by
    simpa using hspec.1
  have hmodeq : a.fmod m * (egcdLoop ((a.fmod m).toNat + 1) 0 1 m (a.fmod m)).1 ≡ 1 [ZMOD m] := by
    simpa using hspec.2
  have heq : mod_inv a m = .ok (modInvVal a m) := by
    simp only [mod_inv, if_neg h0, h2, modInvVal]
    simp
  have hVfe : modInvVal a m =
      (egcdLoop ((a.fmod m).toNat + 1) 0 1 m (a.fmod m)).1 % m := by
    rw [modInvVal, Int.fmod_eq_emod _ hm.le]
  refine ⟨heq, ?_, ?_, ?_⟩
  · rw [hVfe]; exact Int.emod_nonneg _ hm.ne'
  · rw [hVfe]; exact Int.emod_lt_of_pos _ hm
  · have hAa : a ≡ a.fmod m [ZMOD m] := by
      rw [hfe]
      exact (Int.emod_emod_of_dvd a dvd_rfl).symm
    have hTt : modInvVal a m ≡ (egcdLoop ((a.fmod m).toNat + 1) 0 1 m (a.fmod m)).1 [ZMOD m] := by
      rw [hVfe]
      exact Int.emod_emod_of_dvd _ dvd_rfl
    exact (hAa.mul hTt).trans hmodeq

theorem P_pos : (0 : Int) < P := by norm_num [P]

theorem N_pos : (0 : Int) < N := by norm_num [N]

theorem gcd_one_of_prime {p x : Nat} (hp : p.Prime) (h0 : x ≠ 0) (hlt : x < p) :
    Nat.gcd p x = 1 :=
  (hp.coprime_iff_not_dvd).mpr fun hdvd =>
    absurd (Nat.le_of_dvd (Nat.pos_of_ne_zero h0) hdvd) (by omega)

theorem fmod_P_bounds (a : Int) : 0 ≤ a.fmod P ∧ a.fmod P < P := by
  rw [Int.fmod_eq_emod _ P_pos.le]
  exact ⟨Int.emod_nonneg a P_pos.ne', Int.emod_lt_of_pos a P_pos⟩

theorem fmod_N_bounds (a : Int) : 0 ≤ a.fmod N ∧ a.fmod N < N := by
  rw [Int.fmod_eq_emod _ N_pos.le]
  exact ⟨Int.emod_nonneg a N_pos.ne', Int.emod_lt_of_pos a N_pos⟩

theorem mod_inv_P_ok (a : Int) (h0 : a.fmod P ≠ 0) :
    mod_inv a P = .ok (modInvVal a P) ∧ 0 ≤ modInvVal a P ∧ modInvVal a P < P ∧
      a * modInvVal a P ≡ 1 [ZMOD P] := by
  refine mod_inv_ok_of_gcd_one a P P_pos h0 ?_
  obtain ⟨h1, h2⟩ := fmod_P_bounds a
  have hPt : P.toNat = Pn := rfl
  have h2n : a.fmod P < (Pn : Int) := by rw [Pn_cast]; exact h2
  rw [hPt]
  exact gcd_one_of_prime Pn_prime (by omega) (by omega)

theorem mod_inv_N_ok (a : Int) (h0 : a.fmod N ≠ 0) :
    mod_inv a N = .ok (modInvVal a N) ∧ 0 ≤ modInvVal a N ∧ modInvVal a N < N ∧
      a * modInvVal a N ≡ 1 [ZMOD N] := by
  refine mod_inv_ok_of_gcd_one a N N_pos h0 ?_
  obtain ⟨h1, h2⟩ := fmod_N_bounds a
  have hNt : N.toNat = Nn := rfl
  have h2n : a.fmod N < (Nn : Int) := by rw [Nn_cast]; exact h2
  rw [hNt]
  exact gcd_one_of_prime Nn_prime (by omega) (by omega)

theorem modInvVal_P_cast (a : Int) (h0 : a.fmod P ≠ 0) :
    ((modInvVal a P : Int) : ZMod Pn) = ((a : Int) : ZMod Pn)⁻¹ := by
  have h := (mod_inv_P_ok a h0).2.2.2
  have hc : ((a * modInvVal a P : Int) : ZMod Pn) = ((1 : Int) : ZMod Pn) :=
    (ZMod.intCast_eq_intCast_iff _ _ _).mpr (by rw [Pn_cast]; exact h)
  push_cast at hc
  exact (inv_eq_of_mul_eq_one_right hc).symm

theorem modInvVal_N_cast (a : Int) (h0 : a.fmod N ≠ 0) :
    ((modInvVal a N : Int) : ZMod Nn) = ((a : Int) : ZMod Nn)⁻¹ := by
  have h := (mod_inv_N_ok a h0).2.2.2
  have hc : ((a * modInvVal a N : Int) : ZMod Nn) = ((1 : Int) : ZMod Nn) :=
    (ZMod.intCast_eq_intCast_iff _ _ _).mpr (by rw [Nn_cast]; exact h)
  push_cast at hc
  exact (inv_eq_of_mul_eq_one_right hc).symm

theorem fmod_P_zero_iff (a : Int) : a.fmod P = 0 ↔ a ≡ 0 [ZMOD P] := by
  rw [Int.fmod_eq_emod _ P_pos.le]
  simp [Int.ModEq]

/-- C4: invert(a) = `mod_inv(a, P)` fails with a `ZeroDivisionError` iff
a ≡ 0 (mod P); for every a not ≡ 0 (mod P) it returns the unique b in
[0, P) with a·b ≡ 1 (mod P). -/
theorem C4_invert_spec (a : Int) :
    ((∃ s, mod_inv a P = .error (.zeroDivisionError s)) ↔ a ≡ 0 [ZMOD P]) ∧
    (¬ a ≡ 0 [ZMOD P] →
      ∃ b, mod_inv a P = .ok b ∧ 0 ≤ b ∧ b < P ∧ a * b ≡ 1 [ZMOD P] ∧
        ∀ c, 0 ≤ c → c < P → a * c ≡ 1 [ZMOD P] → c = b) := by
  constructor
  · constructor
    · rintro ⟨s, hs⟩
      by_contra hne
      have h0 : a.fmod P ≠ 0 := fun h => hne ((fmod_P_zero_iff a).mp h)
      have := (mod_inv_P_ok a h0).1
      rw [hs] at this
      exact Except.noConfusion this
    · intro h
      exact ⟨"inverse of 0", by simp [mod_inv, (fmod_P_zero_iff a).mpr h]⟩
  · intro hne
    have h0 : a.fmod P ≠ 0 := fun h => hne ((fmod_P_zero_iff a).mp h)
    obtain ⟨heq, hge, hlt, hmod⟩ := mod_inv_P_ok a h0
    refine ⟨modInvVal a P, heq, hge, hlt, hmod, ?_⟩
    intro c hc0 hclt hcm
    have e1 : c * (a * modInvVal a P) ≡ c * 1 [ZMOD P] := Int.ModEq.mul_left c hmod
    have e2 : a * c * modInvVal a P ≡ 1 * modInvVal a P [ZMOD P] := Int.ModEq.mul_right _ hcm
    have e2' : c * (a * modInvVal a P) ≡ 1 * modInvVal a P [ZMOD P] := by
      rw [show c * (a * modInvVal a P) = a * c * modInvVal a P from by ring]
      exact e2
    have e3 : c ≡ modInvVal a P [ZMOD P] := by
      have h := e1.symm.trans e2'
      simpa using h
    have e4 : c % P = modInvVal a P % P := e3
    rw [Int.emod_eq_of_lt hc0 hclt, Int.emod_eq_of_lt hge hlt] at e4
    exact e4

/-- Witness for C4 at a = 2. -/
theorem C4_invert_spec_witness :
    ∃ b, mod_inv 2 P = .ok b ∧ 0 ≤ b ∧ b < P ∧ 2 * b ≡ 1 [ZMOD P] ∧
      ∀ c, 0 ≤ c → c < P → 2 * c ≡ 1 [ZMOD P] → c = b :=
  (C4_invert_spec 2).2 (by decide)

/-! ## Equivalence of the two inversion paths (C5) -/

theorem intCast_fmod_P (a : Int) : ((a.fmod P : Int) : ZMod Pn) = (a : ZMod Pn) := by
  refine (ZMod.intCast_eq_intCast_iff _ _ _).mpr ?_
  rw [Pn_cast, Int.fmod_eq_emod _ P_pos.le]
  exact Int.emod_emod_of_dvd a dvd_rfl

theorem intCast_fmod_N (a : Int) : ((a.fmod N : Int) : ZMod Nn) = (a : ZMod Nn) := by
  refine (ZMod.intCast_eq_intCast_iff _ _ _).mpr ?_
  rw [Nn_cast, Int.fmod_eq_emod _ N_pos.le]
  exact Int.emod_emod_of_dvd a dvd_rfl

theorem intCast_ne_zero_of_fmod_P {a : Int} (h0 : a.fmod P ≠ 0) : (a : ZMod Pn) ≠ 0 := by
  intro hz
  have hdvd : (Pn : Int) ∣ a := (ZMod.intCast_zmod_eq_zero_iff_dvd a Pn).mp hz
  rw [Pn_cast] at hdvd
  rw [Int.fmod_eq_emod _ P_pos.le] at h0
  exact h0 (Int.emod_eq_zero_of_dvd hdvd)

theorem genInv_bounds (a : Int) : 0 ≤ Gen.inv a ∧ Gen.inv a < P := by
  unfold Gen.inv
  constructor
  · positivity
  · have h := powM_lt (a.fmod P).toNat (Pn - 2) Pn (by norm_num [Pn])
    have h2 : ((powM (a.fmod P).toNat (Pn - 2) Pn : Nat) : Int) < (Pn : Int) :=
      by exact_mod_cast h
    rw [Pn_cast] at h2
    exact h2

theorem genInv_cast (a : Int) : ((Gen.inv a : Int) : ZMod Pn) = (a : ZMod Pn) ^ (Pn - 2) := by
  unfold Gen.inv
  rw [Int.cast_natCast, powM_cast_zmod]
  have hbase : (((a.fmod P).toNat : Nat) : ZMod Pn) = (a : ZMod Pn) := by
    have h1 : (((a.fmod P).toNat : Nat) : Int) = a.fmod P :=
      Int.toNat_of_nonneg (fmod_P_bounds a).1
    calc (((a.fmod P).toNat : Nat) : ZMod Pn)
        = ((((a.fmod P).toNat : Nat) : Int) : ZMod Pn) := (Int.cast_natCast _).symm
      _ = ((a.fmod P : Int) : ZMod Pn) := by rw [h1]
      _ = (a : ZMod Pn) := intCast_fmod_P a
  rw [hbase]

theorem genInv_mul (a : Int) (h0 : a.fmod P ≠ 0) : a * Gen.inv a ≡ 1 [ZMOD P] := by
  have hx : (a : ZMod Pn) ≠ 0 := intCast_ne_zero_of_fmod_P h0
  have hfer : (a : ZMod Pn) ^ (Pn - 1) = 1 := ZMod.pow_card_sub_one_eq_one hx
  have hsucc : Pn - 2 + 1 = Pn - 1 := by norm_num [Pn]
  have hmul : ((a * Gen.inv a : Int) : ZMod Pn) = ((1 : Int) : ZMod Pn) := by
    push_cast
    rw [genInv_cast a, ← pow_succ']
    rw [← hsucc] at hfer
    rw [hfer]
  have := (ZMod.intCast_eq_intCast_iff _ _ _).mp hmul
  rwa [Pn_cast] at this

theorem modInv_unique_P (a c : Int) (h0 : a.fmod P ≠ 0) (hc0 : 0 ≤ c) (hclt : c < P)
    (hcm : a * c ≡ 1 [ZMOD P]) : c = modInvVal a P := by
  obtain ⟨heq, hge, hlt, hmod⟩ := mod_inv_P_ok a h0
  have e1 : c * (a * modInvVal a P) ≡ c * 1 [ZMOD P] := Int.ModEq.mul_left c hmod
  have e2 : a * c * modInvVal a P ≡ 1 * modInvVal a P [ZMOD P] := Int.ModEq.mul_right _ hcm
  have e2' : c * (a * modInvVal a P) ≡ 1 * modInvVal a P [ZMOD P] := by
    rw [show c * (a * modInvVal a P) = a * c * modInvVal a P from by ring]
    exact e2
  have e3 : c ≡ modInvVal a P [ZMOD P] := by
    have h := e1.symm.trans e2'
    simpa using h
  have e4 : c % P = modInvVal a P % P := e3
  rw [Int.emod_eq_of_lt hc0 hclt, Int.emod_eq_of_lt hge hlt] at e4
  exact e4

/-- C5 counterexample: at a = 0 the two inversion paths are not
interchangeable: extended-Euclid `mod_inv` raises `ZeroDivisionError`
while Fermat `inv` returns 0. -/
theorem C5_two_inversions_counterexample :
    mod_inv 0 P = .error (.zeroDivisionError "inverse of 0") ∧ Gen.inv 0 = 0 ∧
      ¬ mod_inv 0 P = .ok (Gen.inv 0) := by
  refine ⟨by decide, ?_, by decide⟩
  decide

/-- C5 amended: for every a that is not ≡ 0 (mod P), the two inversion
paths agree: `mod_inv(a, P)` succeeds and returns exactly `inv(a)`. -/
theorem C5_two_inversions_agree (a : Int) (h : ¬ a ≡ 0 [ZMOD P]) :
    mod_inv a P = .ok (Gen.inv a) := by
  have h0 : a.fmod P ≠ 0 := fun hz => h ((fmod_P_zero_iff a).mp hz)
  obtain ⟨hb0, hblt⟩ := genInv_bounds a
  rw [(mod_inv_P_ok a h0).1,
    ← modInv_unique_P a (Gen.inv a) h0 hb0 hblt (genInv_mul a h0)]

/-- Witness for C5 at a = 5. -/
theorem C5_two_inversions_agree_witness : mod_inv 5 P = .ok (Gen.inv 5) :=
  C5_two_inversions_agree 5 (by decide)

/-! ## Bridge lemmas between Int arithmetic mod P and the field ZMod Pn -/

theorem Pn_two : 2 ≤ Pn := by norm_num [Pn]

theorem fmod_P_eq_zero_iff_cast (a : Int) : a.fmod P = 0 ↔ (a : ZMod Pn) = 0 := by
  rw [Int.fmod_eq_emod _ P_pos.le]
  constructor
  · intro h
    have hdvd : P ∣ a := Int.dvd_of_emod_eq_zero h
    exact (ZMod.intCast_zmod_eq_zero_iff_dvd a Pn).mpr (Pn_cast ▸ hdvd)
  · intro h
    have hdvd : (Pn : Int) ∣ a := (ZMod.intCast_zmod_eq_zero_iff_dvd a Pn).mp h
    exact Int.emod_eq_zero_of_dvd (Pn_cast ▸ hdvd)

theorem val_intCast_eq (a : Int) (h0 : 0 ≤ a) (h1 : a < P) :
    ((((a : ZMod Pn)).val : Nat) : Int) = a := by
  have ht : a = ((a.toNat : Nat) : Int) := (Int.toNat_of_nonneg h0).symm
  have hlt : a.toNat < Pn := by
    have := Pn_cast
    omega
  rw [ht, Int.cast_natCast, ZMod.val_cast_of_lt hlt]

theorem intCast_val_cast (t : ZMod Pn) : (((t.val : Int)) : ZMod Pn) = t := by
  haveI : NeZero Pn := ⟨by norm_num [Pn]⟩
  rw [Int.cast_natCast, ZMod.natCast_val, ZMod.cast_id]

theorem val_int_lt (t : ZMod Pn) : (t.val : Int) < P := by
  haveI : NeZero Pn := ⟨by norm_num [Pn]⟩
  have := ZMod.val_lt t
  have h2 := Pn_cast
  omega

theorem fmod_P_val_pair (a : Int) : a.fmod P = (((a : ZMod Pn)).val : Int) := by
  obtain ⟨h0, h1⟩ := fmod_P_bounds a
  rw [← val_intCast_eq (a.fmod P) h0 h1, intCast_fmod_P]

/-! ## The four-case group law of `point_add` (C2) -/

theorem fmod_P_ne_zero_of_ne {x1 x2 : Int} (h0 : 0 ≤ x1) (h1 : x1 < P) (h2 : 0 ≤ x2)
    (h3 : x2 < P) (hne : x1 ≠ x2) : (x2 - x1).fmod P ≠ 0 := by
  rw [Int.fmod_eq_emod _ P_pos.le]
  intro h
  have hdvd : P ∣ (x2 - x1) := Int.dvd_of_emod_eq_zero h
  have habs : |x2 - x1| < P := by
    rw [abs_lt]
    omega
  have := Int.eq_zero_of_abs_lt_dvd hdvd habs
  omega

/-- C2: `point_add` follows the spec's four-case group law: infinity is
the identity on either side; equal x with opposite y gives infinity;
equal x otherwise delegates to `point_double`; and distinct (reduced) x
gives the chord formulas with slope (y2−y1)·invert(x2−x1), all mod P. -/
theorem C2_point_add_cases :
    (∀ B : Point, point_add none B = .ok B) ∧
    (∀ A : Point, point_add A none = .ok A) ∧
    (∀ x1 y1 x2 y2 : Int, x1 = x2 → y1 + y2 ≡ 0 [ZMOD P] →
      point_add (some (x1, y1)) (some (x2, y2)) = .ok none) ∧
    (∀ x1 y1 x2 y2 : Int, x1 = x2 → ¬ y1 + y2 ≡ 0 [ZMOD P] →
      point_add (some (x1, y1)) (some (x2, y2)) = point_double (some (x1, y1))) ∧
    (∀ x1 y1 x2 y2 : Int, 0 ≤ x1 → x1 < P → 0 ≤ x2 → x2 < P → x1 ≠ x2 →
      ∃ i, mod_inv (x2 - x1) P = .ok i ∧
        point_add (some (x1, y1)) (some (x2, y2)) =
          .ok (let lam := ((y2 - y1) * i).fmod P
               let x3 := (lam * lam - x1 - x2).fmod P
               some (x3, (lam * (x1 - x3) - y1).fmod P))) := by
  refine ⟨fun B => rfl, fun A => ?_, fun x1 y1 x2 y2 hx hy => ?_,
    fun x1 y1 x2 y2 hx hy => ?_, fun x1 y1 x2 y2 h0 h1 h2 h3 hne => ?_⟩
  · rcases A with _ | ⟨x, y⟩ <;> rfl
  · subst hx
    have h2 : (y1 + y2).fmod P = 0 := (fmod_P_zero_iff _).mpr hy
    simp [point_add, h2]
  · subst hx
    have h2 : ¬ (y1 + y2).fmod P = 0 := fun h => hy ((fmod_P_zero_iff _).mp h)
    simp [point_add, h2]
  · have hz : (x2 - x1).fmod P ≠ 0 := fmod_P_ne_zero_of_ne h0 h1 h2 h3 hne
    obtain ⟨heq, -, -, -⟩ := mod_inv_P_ok (x2 - x1) hz
    refine ⟨modInvVal (x2 - x1) P, heq, ?_⟩
    simp only [point_add, hne, if_false, if_neg hne, heq]
    rfl

/-! ## Correspondence with the Mathlib group law -/

theorem secp_a1 : secp.a₁ = 0 := rfl

theorem secp_a2 : secp.a₂ = 0 := rfl

theorem secp_a3 : secp.a₃ = 0 := rfl

theorem secp_a4 : secp.a₄ = 0 := rfl

theorem secp_a6 : secp.a₆ = 7 := rfl

theorem natCast_Pn_ne_zero (k : Nat) (h0 : k ≠ 0) (h1 : k < Pn) : ((k : Nat) : ZMod Pn) ≠ 0 := by
  intro h
  have := (ZMod.natCast_zmod_eq_zero_iff_dvd k Pn).mp h
  have := Nat.le_of_dvd (Nat.pos_of_ne_zero h0) this
  omega

theorem two_ne_zero_zmodP : (2 : ZMod Pn) ≠ 0 := by
  have h : ((2 : Nat) : ZMod Pn) ≠ 0 := natCast_Pn_ne_zero 2 (by norm_num) (by norm_num [Pn])
  simpa using h

theorem secp_Δ_ne : secp.Δ ≠ 0 := by
  have hval : secp.Δ = -21168 := by
    simp [WeierstrassCurve.Δ, WeierstrassCurve.b₂, WeierstrassCurve.b₄, WeierstrassCurve.b₆,
      WeierstrassCurve.b₈, secp_a1, secp_a2, secp_a3, secp_a4, secp_a6]
    norm_num
  rw [hval]
  intro h
  have h2 : (21168 : ZMod Pn) = 0 := by
    have := neg_eq_zero.mp h
    exact_mod_cast this
  have h3 : ((21168 : Nat) : ZMod Pn) ≠ 0 := natCast_Pn_ne_zero 21168 (by norm_num) (by norm_num [Pn])
  exact h3 (by exact_mod_cast h2)

theorem secp_negY (x y : ZMod Pn) : secp.negY x y = -y := by
  simp [WeierstrassCurve.Affine.negY, secp_a1, secp_a3]

theorem secp_equation_iff (x y : ZMod Pn) : secp.Equation x y ↔ y ^ 2 = x ^ 3 + 7 := by
  rw [WeierstrassCurve.Affine.equation_iff, secp_a1, secp_a2, secp_a3, secp_a4, secp_a6]
  constructor <;> intro h <;> linear_combination h

theorem is_on_curve_some_iff (x y : Int) :
    is_on_curve (some (x, y)) = true ↔
      0 ≤ x ∧ x < P ∧ 0 ≤ y ∧ y < P ∧ secp.Equation (x : ZMod Pn) (y : ZMod Pn) := by
  simp only [is_on_curve]
  by_cases hr : 0 ≤ x ∧ x < P ∧ 0 ≤ y ∧ y < P
  · obtain ⟨h1, h2, h3, h4⟩ := hr
    rw [if_neg (by tauto), secp_equation_iff]
    have hcast : (y * y - (x * x * x + 7)).fmod P = 0 ↔
        ((y : ZMod Pn)) ^ 2 = ((x : ZMod Pn)) ^ 3 + 7 := by
      rw [fmod_P_eq_zero_iff_cast]
      push_cast
      rw [sub_eq_zero]
      constructor <;> intro h <;> linear_combination h
    simp only [decide_eq_true_eq]
    constructor
    · intro h
      exact ⟨h1, h2, h3, h4, hcast.mp h⟩
    · intro h
      exact hcast.mpr h.2.2.2.2
  · rw [if_pos (by tauto)]
    simp only [Bool.false_eq_true, false_iff]
    tauto

theorem fromW_onCurve (Q : secp.Point) : is_on_curve (fromW Q) = true := by
  haveI : NeZero Pn := ⟨by norm_num [Pn]⟩
  cases Q with
  | zero => rfl
  | @some x y h =>
    rw [fromW, is_on_curve_some_iff]
    refine ⟨by positivity, val_int_lt x, by positivity, val_int_lt y, ?_⟩
    rw [intCast_val_cast, intCast_val_cast]
    exact h.1

theorem fromW_eq_none_iff (Q : secp.Point) : fromW Q = none ↔ Q = 0 := by
  cases Q with
  | zero => exact ⟨fun _ => rfl, fun _ => rfl⟩
  | @some x y h =>
    simp only [fromW, reduceCtorEq, false_iff]

theorem exbind_ok {ε α β : Type} (a : α) (f : α → Except ε β) :
    (Except.ok a : Except ε α) >>= f = f a := rfl

theorem int_eq_val_of_cast {a : Int} {t : ZMod Pn} (h0 : 0 ≤ a) (h1 : a < P)
    (hc : (a : ZMod Pn) = t) : a = (t.val : Int) := by
  rw [← hc]
  exact (val_intCast_eq a h0 h1).symm

theorem val_eq_zero_int {t : ZMod Pn} : (t.val : Int) = 0 ↔ t = 0 := by
  haveI : NeZero Pn := ⟨by norm_num [Pn]⟩
  rw [show ((t.val : Nat) : Int) = 0 ↔ t.val = 0 from by omega]
  exact ZMod.val_eq_zero t

theorem point_double_fromW (x y : ZMod Pn) (h : secp.Nonsingular x y) :
    point_double (some ((x.val : Int), (y.val : Int))) =
      .ok (fromW (WeierstrassCurve.Affine.Point.some h + WeierstrassCurve.Affine.Point.some h)) := by
  by_cases hy0 : y = 0
  · have hyv : (y.val : Int) = 0 := val_eq_zero_int.mpr hy0
    have hsum : WeierstrassCurve.Affine.Point.some h + WeierstrassCurve.Affine.Point.some h = 0 :=
      WeierstrassCurve.Affine.Point.add_of_Y_eq rfl (by rw [secp_negY, hy0, neg_zero])
    rw [hsum]
    simp [point_double, hyv, fromW]
  · have hyv : (y.val : Int) ≠ 0 := fun hh => hy0 (val_eq_zero_int.mp hh)
    have hyne : y ≠ secp.negY x y := by
      rw [secp_negY]
      intro hh
      apply hy0
      have h2 : (2 : ZMod Pn) * y = 0 := by linear_combination hh
      rcases mul_eq_zero.mp h2 with h3 | h3
      · exact absurd h3 two_ne_zero_zmodP
      · exact h3
    haveI : NeZero Pn := ⟨by norm_num [Pn]⟩
    have hX : (((x.val : Int)) : ZMod Pn) = x := intCast_val_cast x
    have hY : (((y.val : Int)) : ZMod Pn) = y := intCast_val_cast y
    have hXn : ((x.val : Nat) : ZMod Pn) = x := by rw [ZMod.natCast_val, ZMod.cast_id]
    have hYn : ((y.val : Nat) : ZMod Pn) = y := by rw [ZMod.natCast_val, ZMod.cast_id]
    have hz : (2 * (y.val : Int)).fmod P ≠ 0 := by
      intro hh
      rw [fmod_P_eq_zero_iff_cast] at hh
      push_cast at hh
      rw [hYn] at hh
      rcases mul_eq_zero.mp hh with h3 | h3
      · exact absurd h3 two_ne_zero_zmodP
      · exact hy0 h3
    obtain ⟨hiv, -, -, -⟩ := mod_inv_P_ok (2 * (y.val : Int)) hz
    have hicast : ((modInvVal (2 * (y.val : Int)) P : Int) : ZMod Pn) = (2 * y)⁻¹ := by
      rw [modInvVal_P_cast _ hz]
      push_cast
      rw [hYn]
    have hlamcast :
        ((((3 * (x.val : Int) * (x.val : Int)) * modInvVal (2 * (y.val : Int)) P).fmod P : Int) :
          ZMod Pn) = secp.slope x x y y := by
      rw [intCast_fmod_P]
      push_cast
      rw [hicast, hXn]
      rw [WeierstrassCurve.Affine.slope_of_Y_ne rfl hyne, secp_negY, secp_a1, secp_a2, secp_a4]
      have h2y : y - -y = 2 * y := by ring
      rw [h2y]
      have h2yne : (2 : ZMod Pn) * y ≠ 0 := by
        intro hh
        rcases mul_eq_zero.mp hh with h3 | h3
        · exact absurd h3 two_ne_zero_zmodP
        · exact hy0 h3
      field_simp
      ring
    rw [WeierstrassCurve.Affine.Point.add_of_Y_ne hyne]
    set L := secp.slope x x y y with hL
    set lam := ((3 * (x.val : Int) * (x.val : Int)) * modInvVal (2 * (y.val : Int)) P).fmod P
      with hlamdef
    set x3 := (lam * lam - 2 * (x.val : Int)).fmod P with hx3def
    have hx3cast : ((x3 : Int) : ZMod Pn) = secp.addX x x L := by
      rw [hx3def, intCast_fmod_P]
      push_cast
      rw [hlamcast, hXn]
      simp only [WeierstrassCurve.Affine.addX, secp_a1, secp_a2]
      ring
    have hy3cast : (((lam * ((x.val : Int) - x3) - (y.val : Int)).fmod P : Int) : ZMod Pn) =
        secp.addY x x y L := by
      rw [intCast_fmod_P]
      push_cast
      rw [hlamcast, hx3cast, hXn, hYn]
      simp only [WeierstrassCurve.Affine.addY, WeierstrassCurve.Affine.negAddY, secp_negY]
      ring
    simp only [point_double, if_neg hyv, hiv, exbind_ok, fromW]
    rw [Except.ok.injEq, Option.some.injEq, Prod.mk.injEq]
    constructor
    · exact int_eq_val_of_cast (fmod_P_bounds _).1 (fmod_P_bounds _).2 hx3cast
    · exact int_eq_val_of_cast (fmod_P_bounds _).1 (fmod_P_bounds _).2 hy3cast

theorem fromW_add (Q1 Q2 : secp.Point) :
    point_add (fromW Q1) (fromW Q2) = .ok (fromW (Q1 + Q2)) := by
  haveI : NeZero Pn := ⟨by norm_num [Pn]⟩
  cases Q1 with
  | zero =>
    show point_add (fromW 0) (fromW Q2) = .ok (fromW (0 + Q2))
    rw [zero_add]
    cases Q2 <;> rfl
  | @some x1 y1 h1 =>
    cases Q2 with
    | zero =>
      show point_add (fromW (.some h1)) (fromW 0) = .ok (fromW (.some h1 + 0))
      rw [add_zero]
      rfl
    | @some x2 y2 h2 =>
      have hX1n : ((x1.val : Nat) : ZMod Pn) = x1 := by rw [ZMod.natCast_val, ZMod.cast_id]
      have hY1n : ((y1.val : Nat) : ZMod Pn) = y1 := by rw [ZMod.natCast_val, ZMod.cast_id]
      have hX2n : ((x2.val : Nat) : ZMod Pn) = x2 := by rw [ZMod.natCast_val, ZMod.cast_id]
      have hY2n : ((y2.val : Nat) : ZMod Pn) = y2 := by rw [ZMod.natCast_val, ZMod.cast_id]
      by_cases hx : x1 = x2
      · subst hx
        by_cases hy : y1 = secp.negY x1 y2
        · have hsum : WeierstrassCurve.Affine.Point.some h1 + WeierstrassCurve.Affine.Point.some h2 = 0 :=
            WeierstrassCurve.Affine.Point.add_of_Y_eq rfl hy
          have hfm : ((y1.val : Int) + (y2.val : Int)).fmod P = 0 := by
            rw [fmod_P_eq_zero_iff_cast]
            push_cast
            rw [hY1n, hY2n, hy, secp_negY]
            ring
          rw [hsum]
          show point_add (some ((x1.val : Int), (y1.val : Int)))
              (some ((x1.val : Int), (y2.val : Int))) = .ok none
          simp only [point_add, if_pos rfl, if_pos hfm, eq_self_iff_true, if_true]
        · have hyy : y1 = y2 :=
            WeierstrassCurve.Affine.Y_eq_of_Y_ne h1.1 h2.1 rfl hy
          subst hyy
          have hQ : WeierstrassCurve.Affine.Point.some h2 = WeierstrassCurve.Affine.Point.some h1 :=
            congrArg WeierstrassCurve.Affine.Point.some (Subsingleton.elim h2 h1)
          rw [hQ]
          have hfm : ¬ ((y1.val : Int) + (y1.val : Int)).fmod P = 0 := by
            intro hh
            rw [fmod_P_eq_zero_iff_cast] at hh
            push_cast at hh
            rw [hY1n] at hh
            exact hy (by rw [secp_negY]; exact eq_neg_of_add_eq_zero_left hh)
          show point_add (some ((x1.val : Int), (y1.val : Int)))
              (some ((x1.val : Int), (y1.val : Int))) =
            .ok (fromW (WeierstrassCurve.Affine.Point.some h1 + WeierstrassCurve.Affine.Point.some h1))
          simp only [point_add, if_pos rfl, if_neg hfm]
          exact point_double_fromW x1 y1 h1
      · have hXne : ((x1.val : Int)) ≠ ((x2.val : Int)) := by
          intro heq
          apply hx
          have hc := congrArg (fun t : Int => (t : ZMod Pn)) heq
          simpa [intCast_val_cast] using hc
        have hx12 : x1 - x2 ≠ 0 := sub_ne_zero.mpr hx
        have hx21 : x2 - x1 ≠ 0 := sub_ne_zero.mpr (Ne.symm hx)
        have hz : ((x2.val : Int) - (x1.val : Int)).fmod P ≠ 0 := by
          intro hh
          rw [fmod_P_eq_zero_iff_cast] at hh
          push_cast at hh
          rw [hX1n, hX2n] at hh
          exact hx21 (by linear_combination hh)
        obtain ⟨hiv, -, -, -⟩ := mod_inv_P_ok ((x2.val : Int) - (x1.val : Int)) hz
        have hicast : ((modInvVal ((x2.val : Int) - (x1.val : Int)) P : Int) : ZMod Pn) =
            (x2 - x1)⁻¹ := by
          rw [modInvVal_P_cast _ hz]
          push_cast
          rw [hX1n, hX2n]
        set L := secp.slope x1 x2 y1 y2 with hL
        have hlamcast :
            (((((y2.val : Int) - (y1.val : Int)) * modInvVal ((x2.val : Int) - (x1.val : Int)) P).fmod
              P : Int) : ZMod Pn) = L := by
          rw [intCast_fmod_P]
          push_cast
          rw [hicast, hY1n, hY2n]
          rw [hL, WeierstrassCurve.Affine.slope_of_X_ne hx]
          field_simp
          ring
        set lam := (((y2.val : Int) - (y1.val : Int)) *
          modInvVal ((x2.val : Int) - (x1.val : Int)) P).fmod P with hlamdef
        set x3 := (lam * lam - (x1.val : Int) - (x2.val : Int)).fmod P with hx3def
        have hx3cast : ((x3 : Int) : ZMod Pn) = secp.addX x1 x2 L := by
          rw [hx3def, intCast_fmod_P]
          push_cast
          rw [hlamcast, hX1n, hX2n]
          simp only [WeierstrassCurve.Affine.addX, secp_a1, secp_a2]
          ring
        have hy3cast : (((lam * ((x1.val : Int) - x3) - (y1.val : Int)).fmod P : Int) : ZMod Pn) =
            secp.addY x1 x2 y1 L := by
          rw [intCast_fmod_P]
          push_cast
          rw [hlamcast, hx3cast, hX1n, hY1n]
          simp only [WeierstrassCurve.Affine.addY, WeierstrassCurve.Affine.negAddY, secp_negY]
          ring
        rw [WeierstrassCurve.Affine.Point.add_of_X_ne hx]
        show point_add (some ((x1.val : Int), (y1.val : Int)))
            (some ((x2.val : Int), (y2.val : Int))) = _
        simp only [point_add, if_neg hXne, hiv, exbind_ok, fromW]
        rw [Except.ok.injEq, Option.some.injEq, Prod.mk.injEq]
        constructor
        · exact int_eq_val_of_cast (fmod_P_bounds _).1 (fmod_P_bounds _).2 hx3cast
        · exact int_eq_val_of_cast (fmod_P_bounds _).1 (fmod_P_bounds _).2 hy3cast

theorem fromW_dbl (Q : secp.Point) : point_double (fromW Q) = .ok (fromW (Q + Q)) := by
  cases Q with
  | zero =>
    show point_double (fromW 0) = .ok (fromW (0 + 0))
    rw [add_zero]
    rfl
  | @some x y h => exact point_double_fromW x y h

theorem smLoop_fromW :
    ∀ (fuel k : Nat) (R Q : secp.Point), k < 2 ^ fuel →
      smLoop fuel k (fromW R) (fromW Q) = .ok (fromW (R + k • Q)) := by
  intro fuel
  induction fuel with
  | zero =>
    intro k R Q hk
    have hk0 : k = 0 := by simpa using Nat.lt_one_iff.mp hk
    subst hk0
    rw [zero_nsmul, add_zero]
    rfl
  | succ fuel ih =>
    intro k R Q hk
    by_cases hk0 : k = 0
    · subst hk0
      rw [zero_nsmul, add_zero]
      simp [smLoop]
    · simp only [smLoop, if_neg hk0]
      have hlt : k / 2 < 2 ^ fuel := by
        have := pow_succ 2 fuel
        omega
      have h2Q : Q + Q = 2 • Q := (two_nsmul Q).symm
      by_cases hp : k % 2 = 1
      · rw [if_pos hp, fromW_add, exbind_ok, fromW_dbl, exbind_ok,
          ih (k / 2) (R + Q) (Q + Q) hlt]
        have halg : R + Q + (k / 2) • (Q + Q) = R + k • Q := by
          rw [h2Q, ← mul_nsmul, add_assoc]
          rw [show Q + (2 * (k / 2)) • Q = (1 + 2 * (k / 2)) • Q from by rw [add_nsmul, one_nsmul]]
          have hk2 : 1 + 2 * (k / 2) = k := by omega
          rw [hk2]
        rw [halg]
      · rw [if_neg hp, exbind_ok, fromW_dbl, exbind_ok, ih (k / 2) R (Q + Q) hlt]
        have halg : R + (k / 2) • (Q + Q) = R + k • Q := by
          rw [h2Q, ← mul_nsmul]
          have hk2 : 2 * (k / 2) = k := by omega
          rw [hk2]
        rw [halg]

theorem scalar_mul_fromW (k : Int) (Q : secp.Point) :
    scalar_mul k (fromW Q) = .ok (fromW ((k.fmod N).toNat • Q)) := by
  by_cases h1 : (k.fmod N).toNat = 0
  · simp only [scalar_mul, h1, true_or, if_true, zero_nsmul]
    rfl
  · by_cases h2 : fromW Q = none
    · rw [(fromW_eq_none_iff Q).mp h2]
      simp only [scalar_mul, nsmul_zero]
      rw [if_pos (Or.inr ((fromW_eq_none_iff 0).mpr rfl))]
      rfl
    · simp only [scalar_mul, if_neg (by tauto : ¬ ((k.fmod N).toNat = 0 ∨ fromW Q = none))]
      have hfuel : (k.fmod N).toNat < 2 ^ ((k.fmod N).toNat + 1) := by
        have h := Nat.lt_two_pow (k.fmod N).toNat
        have h2 : (2 : Nat) ^ (k.fmod N).toNat ≤ 2 ^ ((k.fmod N).toNat + 1) :=
          Nat.pow_le_pow_right (by norm_num) (Nat.le_succ _)
        omega
      have h := smLoop_fromW ((k.fmod N).toNat + 1) (k.fmod N).toNat 0 Q hfuel
      rw [zero_add] at h
      exact h

theorem exists_fromW {p : Point} (h : is_on_curve p = true) : ∃ Q, fromW Q = p := by
  cases p with
  | none => exact ⟨0, rfl⟩
  | some xy =>
    obtain ⟨x, y⟩ := xy
    rw [is_on_curve_some_iff] at h
    obtain ⟨h1, h2, h3, h4, heq⟩ := h
    refine ⟨.some (secp.nonsingular_of_Δ_ne_zero heq secp_Δ_ne), ?_⟩
    rw [fromW]
    rw [val_intCast_eq x h1 h2, val_intCast_eq y h3 h4]

/-- Witness for C2: the chord case at G and 2·G. -/
theorem C2_point_add_cases_witness :
    ∃ i, mod_inv
        (89565891926547004231252920425935692360644145829622209833684329913297188986597 - GX)
        P = .ok i ∧
      point_add (some (GX, GY))
          (some (89565891926547004231252920425935692360644145829622209833684329913297188986597,
            12158399299693830322967808612713398636155367887041628176798871954788371653930)) =
        .ok (let lam := ((12158399299693830322967808612713398636155367887041628176798871954788371653930
               - GY) * i).fmod P
             let x3 := (lam * lam - GX -
               89565891926547004231252920425935692360644145829622209833684329913297188986597).fmod P
             some (x3, (lam * (GX - x3) - GY).fmod P)) :=
  C2_point_add_cases.2.2.2.2 GX GY
    89565891926547004231252920425935692360644145829622209833684329913297188986597
    12158399299693830322967808612713398636155367887041628176798871954788371653930
    (by decide) (by decide) (by decide) (by decide) (by decide)


/-! ## Transfer between the two implementations of the group law -/

theorem exbind_err {ε α β : Type} (e : ε) (f : α → Except ε β) :
    (Except.error e : Except ε α) >>= f = .error e := rfl

theorem fmod_fmod_P (a : Int) : (a.fmod P).fmod P = a.fmod P := by
  rw [Int.fmod_eq_emod _ P_pos.le, Int.fmod_eq_emod _ P_pos.le]
  exact Int.emod_emod_of_dvd a dvd_rfl

theorem fmod_P_modeq (a : Int) : a.fmod P ≡ a [ZMOD P] := by
  rw [Int.fmod_eq_emod _ P_pos.le]
  exact Int.emod_emod_of_dvd a dvd_rfl

theorem mod_inv_P_ok_inv {a i : Int} (h : mod_inv a P = .ok i) :
    a.fmod P ≠ 0 ∧ i = modInvVal a P := by
  by_cases h0 : a.fmod P = 0
  · simp [mod_inv, h0] at h
  · rw [(mod_inv_P_ok a h0).1] at h
    injection h with hh
    exact ⟨h0, hh.symm⟩

theorem genInv_fmod_eq (a : Int) (h0 : a.fmod P ≠ 0) : Gen.inv (a.fmod P) = modInvVal a P := by
  have h0x : (a.fmod P).fmod P ≠ 0 := by
    rw [fmod_fmod_P]
    exact h0
  obtain ⟨hb1, hb2⟩ := genInv_bounds (a.fmod P)
  have hmul : a * Gen.inv (a.fmod P) ≡ 1 [ZMOD P] := by
    have h1 := genInv_mul (a.fmod P) h0x
    have h2 : a * Gen.inv (a.fmod P) ≡ a.fmod P * Gen.inv (a.fmod P) [ZMOD P] :=
      Int.ModEq.mul (fmod_P_modeq a).symm (Int.ModEq.refl _)
    exact h2.trans h1
  exact modInv_unique_P a _ h0 hb1 hb2 hmul

theorem ok_inj {e a : Type} {x y : a} (h : (Except.ok x : Except e a) = .ok y) : x = y := by
  rw [Except.ok.injEq] at h
  exact h

theorem genDbl_eq_point_double : ∀ {p r : Point}, point_double p = .ok r → Gen.dbl p = r := by
  intro p r h
  cases p with
  | none =>
    rw [← ok_inj h]
    rfl
  | some xy =>
    obtain ⟨x, y⟩ := xy
    by_cases hy : y = 0
    · rw [show point_double (some (x, y)) = .ok none from by simp [point_double, hy]] at h
      rw [← ok_inj h]
      simp [Gen.dbl, hy]
    · simp only [point_double, if_neg hy] at h
      cases hiv : mod_inv (2 * y) P with
      | error e =>
        rw [hiv, exbind_err] at h
        exact Except.noConfusion h
      | ok i =>
        obtain ⟨h0, hieq⟩ := mod_inv_P_ok_inv hiv
        subst hieq
        rw [hiv, exbind_ok] at h
        rw [← ok_inj h]
        simp only [Gen.dbl, if_neg hy]
        rw [genInv_fmod_eq (2 * y) h0]

theorem genAdd_eq_point_add : ∀ {p q r : Point}, point_add p q = .ok r → Gen.add p q = r := by
  intro p q r h
  cases p with
  | none =>
    rw [← ok_inj h]
    rfl
  | some xy1 =>
    obtain ⟨x1, y1⟩ := xy1
    cases q with
    | none =>
      rw [← ok_inj h]
      rfl
    | some xy2 =>
      obtain ⟨x2, y2⟩ := xy2
      by_cases hx : x1 = x2
      · subst hx
        by_cases hy : (y1 + y2).fmod P = 0
        · rw [show point_add (some (x1, y1)) (some (x1, y2)) = .ok none from by
            simp [point_add, hy]] at h
          rw [← ok_inj h]
          simp [Gen.add, hy]
        · rw [show point_add (some (x1, y1)) (some (x1, y2)) = point_double (some (x1, y1)) from by
            simp [point_add, hy]] at h
          have hd := genDbl_eq_point_double h
          rw [show Gen.add (some (x1, y1)) (some (x1, y2)) = Gen.dbl (some (x1, y1)) from by
            simp [Gen.add, hy]]
          exact hd
      · simp only [point_add, if_neg hx] at h
        cases hiv : mod_inv (x2 - x1) P with
        | error e =>
          rw [hiv, exbind_err] at h
          exact Except.noConfusion h
        | ok i =>
          obtain ⟨h0, hieq⟩ := mod_inv_P_ok_inv hiv
          subst hieq
          rw [hiv, exbind_ok] at h
          rw [← ok_inj h]
          simp only [Gen.add, if_neg hx]
          rw [genInv_fmod_eq (x2 - x1) h0]

theorem genAdd_fromW (Q1 Q2 : secp.Point) : Gen.add (fromW Q1) (fromW Q2) = fromW (Q1 + Q2) :=
  genAdd_eq_point_add (fromW_add Q1 Q2)

theorem genDbl_fromW (Q : secp.Point) : Gen.dbl (fromW Q) = fromW (Q + Q) :=
  genDbl_eq_point_double (fromW_dbl Q)

theorem genLadder_fromW :
    ∀ (fuel k : Nat) (R Q : secp.Point), k < 2 ^ fuel →
      genLadder fuel k (fromW R) (fromW Q) = fromW (R + k • Q) := by
  intro fuel
  induction fuel with
  | zero =>
    intro k R Q hk
    have hk0 : k = 0 := by simpa using Nat.lt_one_iff.mp hk
    subst hk0
    rw [zero_nsmul, add_zero]
    rfl
  | succ fuel ih =>
    intro k R Q hk
    by_cases hk0 : k = 0
    · subst hk0
      rw [zero_nsmul, add_zero]
      simp [genLadder]
    · simp only [genLadder, if_neg hk0]
      have hlt : k / 2 < 2 ^ fuel := by
        have := pow_succ 2 fuel
        omega
      have h2Q : Q + Q = 2 • Q := (two_nsmul Q).symm
      by_cases hp : k % 2 = 1
      · rw [if_pos hp, genAdd_fromW, genDbl_fromW, ih (k / 2) (R + Q) (Q + Q) hlt]
        have halg : R + Q + (k / 2) • (Q + Q) = R + k • Q := by
          rw [h2Q, ← mul_nsmul, add_assoc]
          rw [show Q + (2 * (k / 2)) • Q = (1 + 2 * (k / 2)) • Q from by rw [add_nsmul, one_nsmul]]
          have hk2 : 1 + 2 * (k / 2) = k := by omega
          rw [hk2]
        rw [halg]
      · rw [if_neg hp, genDbl_fromW, ih (k / 2) R (Q + Q) hlt]
        have halg : R + (k / 2) • (Q + Q) = R + k • Q := by
          rw [h2Q, ← mul_nsmul]
          have hk2 : 2 * (k / 2) = k := by omega
          rw [hk2]
        rw [halg]


/-! ## The base point G and its order -/

theorem G_equation : secp.Equation ((GX : Int) : ZMod Pn) ((GY : Int) : ZMod Pn) := by
  rw [secp_equation_iff]
  have h : ((GY * GY - (GX * GX * GX + 7)).fmod P) = 0 := by decide
  rw [fmod_P_eq_zero_iff_cast] at h
  push_cast at h
  linear_combination h

theorem G_nonsingular :
    secp.Nonsingular ((GX : Int) : ZMod Pn) ((GY : Int) : ZMod Pn) :=
  secp.nonsingular_of_Δ_ne_zero G_equation secp_Δ_ne

theorem fromW_G : fromW (.some G_nonsingular) = some (GX, GY) := by
  rw [fromW]
  rw [val_intCast_eq GX (by decide) (by decide), val_intCast_eq GY (by decide) (by decide)]

theorem lt_two_pow_succ (n : Nat) : n < 2 ^ (n + 1) := by
  have h := Nat.lt_two_pow n
  have h2 : (2 : Nat) ^ n ≤ 2 ^ (n + 1) := Nat.pow_le_pow_right (by norm_num) (Nat.le_succ _)
  omega

theorem scalar_mul_G_ladder (k : Int) :
    scalar_mul k (some (GX, GY)) =
      .ok (genLadder ((k.fmod N).toNat + 1) (k.fmod N).toNat none (some (GX, GY))) := by
  rw [← fromW_G, scalar_mul_fromW]
  rw [show (none : Point) = fromW 0 from rfl]
  rw [genLadder_fromW ((k.fmod N).toNat + 1) (k.fmod N).toNat 0 (.some G_nonsingular)
    (lt_two_pow_succ _), zero_add]

set_option maxHeartbeats 12000000 in
theorem N_nsmul_G : Nn • (WeierstrassCurve.Affine.Point.some G_nonsingular) = 0 := by
  have h := genLadder_fromW (Nn + 1) Nn 0 (.some G_nonsingular) (lt_two_pow_succ Nn)
  rw [zero_add, fromW_G, show (fromW 0 : Point) = none from rfl] at h
  have hc : genLadder (Nn + 1) Nn none (some (GX, GY)) = (none : Point) := by decide
  rw [hc] at h
  exact (fromW_eq_none_iff _).mp h.symm


theorem fromW_injective : Function.Injective fromW := by
  haveI : NeZero Pn := ⟨by norm_num [Pn]⟩
  intro Q1 Q2 h
  cases Q1 with
  | zero =>
    cases Q2 with
    | zero => rfl
    | @some x2 y2 h2 => simp [fromW] at h
  | @some x1 y1 h1 =>
    cases Q2 with
    | zero => simp [fromW] at h
    | @some x2 y2 h2 =>
      simp only [fromW, Option.some.injEq, Prod.mk.injEq] at h
      obtain ⟨hx, hy⟩ := h
      have hx2 : x1 = x2 := by
        have hc := congrArg (fun t : Int => (t : ZMod Pn)) hx
        simpa [intCast_val_cast] using hc
      have hy2 : y1 = y2 := by
        have hc := congrArg (fun t : Int => (t : ZMod Pn)) hy
        simpa [intCast_val_cast] using hc
      subst hx2
      subst hy2
      exact congrArg WeierstrassCurve.Affine.Point.some (Subsingleton.elim h1 h2)

theorem addOrderOf_G :
    addOrderOf (WeierstrassCurve.Affine.Point.some G_nonsingular) = Nn := by
  have hdvd : addOrderOf (WeierstrassCurve.Affine.Point.some G_nonsingular) ∣ Nn :=
    addOrderOf_dvd_iff_nsmul_eq_zero.mpr N_nsmul_G
  rcases Nat.Prime.eq_one_or_self_of_dvd Nn_prime _ hdvd with h1 | h2
  · exact absurd (AddMonoid.addOrderOf_eq_one_iff.mp h1)
      (WeierstrassCurve.Affine.Point.some_ne_zero _)
  · exact h2

theorem nsmul_G_eq_zero_iff (k : Nat) :
    k • (WeierstrassCurve.Affine.Point.some G_nonsingular) = 0 ↔ Nn ∣ k := by
  rw [← addOrderOf_dvd_iff_nsmul_eq_zero, addOrderOf_G]

theorem nsmul_G_mod (a : Nat) :
    a • (WeierstrassCurve.Affine.Point.some G_nonsingular) =
      (a % Nn) • (WeierstrassCurve.Affine.Point.some G_nonsingular) := by
  conv_lhs => rw [← mod_addOrderOf_nsmul]
  rw [addOrderOf_G]

/-! ## Claims C10 and C3 -/

/-- C10 counterexample: for the off-curve points (0,1) and (0,2),
point_add is not commutative: add delegates to double of its FIRST
argument whenever the x-coordinates agree and the y's are not opposite. -/
theorem C10_point_add_comm_counterexample :
    point_add (some (0, 1)) (some (0, 2)) ≠ point_add (some (0, 2)) (some (0, 1)) := by
  decide

/-- C10 amended: point_add is commutative on all pairs of points of the
curve (including infinity and inverse pairs). -/
theorem C10_point_add_comm_on_curve (a b : Point) (ha : is_on_curve a = true)
    (hb : is_on_curve b = true) : point_add a b = point_add b a := by
  obtain ⟨Qa, rfl⟩ := exists_fromW ha
  obtain ⟨Qb, rfl⟩ := exists_fromW hb
  rw [fromW_add, fromW_add, add_comm]

/-- Witness for amended C10 at G and 2·G. -/
theorem C10_point_add_comm_on_curve_witness :
    point_add (some (GX, GY))
        (some (89565891926547004231252920425935692360644145829622209833684329913297188986597,
          12158399299693830322967808612713398636155367887041628176798871954788371653930)) =
      point_add
        (some (89565891926547004231252920425935692360644145829622209833684329913297188986597,
          12158399299693830322967808612713398636155367887041628176798871954788371653930))
        (some (GX, GY)) :=
  C10_point_add_comm_on_curve _ _ (by decide) (by decide)

theorem smLoop_eq_bits :
    ∀ (fuel k : Nat) (R Q : Point), k < 2 ^ fuel →
      smLoop fuel k R Q = scalarMulBits (Nat.bits k) R Q := by
  intro fuel
  induction fuel with
  | zero =>
    intro k R Q hk
    have hk0 : k = 0 := by simpa using Nat.lt_one_iff.mp hk
    subst hk0
    rw [Nat.zero_bits]
    rfl
  | succ fuel ih =>
    intro k R Q hk
    by_cases hk0 : k = 0
    · subst hk0
      rw [Nat.zero_bits]
      simp [smLoop, scalarMulBits]
    · have hlt : k / 2 < 2 ^ fuel := by
        have := pow_succ 2 fuel
        omega
      by_cases hp : k % 2 = 1
      · have hbits : Nat.bits k = true :: Nat.bits (k / 2) := by
          have hk2 : k = 2 * (k / 2) + 1 := by omega
          conv_lhs => rw [hk2]
          exact Nat.bit1_bits _
        rw [hbits]
        simp only [smLoop, if_neg hk0, if_pos hp, scalarMulBits]
        cases hadd : point_add R Q with
        | error e => rw [exbind_err, exbind_err]
        | ok R1 =>
          rw [exbind_ok, exbind_ok]
          cases hdbl : point_double Q with
          | error e => rw [exbind_err, exbind_err]
          | ok Q1 =>
            rw [exbind_ok, exbind_ok]
            exact ih (k / 2) R1 Q1 hlt
      · have hbits : Nat.bits k = false :: Nat.bits (k / 2) := by
          have hd0 : k / 2 ≠ 0 := by omega
          have hk2 : k = 2 * (k / 2) := by omega
          conv_lhs => rw [hk2]
          exact Nat.bit0_bits _ hd0
        rw [hbits]
        simp only [smLoop, if_neg hk0, if_neg hp, scalarMulBits, exbind_ok]
        cases hdbl : point_double Q with
        | error e => rw [exbind_err, exbind_err]
        | ok Q1 =>
          rw [exbind_ok, exbind_ok]
          exact ih (k / 2) R Q1 hlt

/-- C3: scalar_mul first reduces k mod N; reduced k = 0 or infinite p
yields infinity; otherwise it runs binary double-and-add over the bits
of the reduced k, least-significant first (third conjunct), and for a
point of the curve the result is exactly the (k mod N)-fold group sum
of p (second conjunct), stated via the Mathlib group on the curve. -/
theorem C3_scalar_mul_spec (k : Int) (p : Point) :
    ((k.fmod N = 0 ∨ p = none) → scalar_mul k p = .ok none) ∧
    (∀ Q : secp.Point, p = fromW Q →
      scalar_mul k p = .ok (fromW ((k.fmod N).toNat • Q))) ∧
    scalar_mul k p =
      (if (k.fmod N).toNat = 0 ∨ p = none then .ok none
       else scalarMulBits (Nat.bits (k.fmod N).toNat) none p) := by
  refine ⟨?_, ?_, ?_⟩
  · intro h
    have h2 : (k.fmod N).toNat = 0 ∨ p = none := by
      rcases h with h | h
      · exact Or.inl (by omega)
      · exact Or.inr h
    simp only [scalar_mul]
    rw [if_pos h2]
  · intro Q hQ
    subst hQ
    exact scalar_mul_fromW k Q
  · by_cases h : (k.fmod N).toNat = 0 ∨ p = none
    · simp only [scalar_mul]
      rw [if_pos h, if_pos h]
    · simp only [scalar_mul]
      rw [if_neg h, if_neg h]
      exact smLoop_eq_bits _ _ none p (lt_two_pow_succ _)

/-- Witness for C3 at k = 5 and p = G. -/
theorem C3_scalar_mul_spec_witness :
    scalar_mul 5 (some (GX, GY)) =
      .ok (fromW (((5 : Int).fmod N).toNat • WeierstrassCurve.Affine.Point.some G_nonsingular)) :=
  (C3_scalar_mul_spec 5 (some (GX, GY))).2.1 (.some G_nonsingular) fromW_G.symm


/-! ## The wNAF table generator (C6) -/

theorem gen_tableLoop_fromW :
    ∀ (n : Nat) (C T : secp.Point),
      Gen.gen_tableLoop n (fromW C) (fromW T) =
        (List.range n).map (fun i => fromW (C + i • T)) := by
  intro n
  induction n with
  | zero => intro C T; rfl
  | succ n ih =>
    intro C T
    rw [List.range_succ_eq_map]
    simp only [Gen.gen_tableLoop, List.map_cons, List.map_map]
    rw [List.cons.injEq]
    refine ⟨?_, ?_⟩
    · rw [zero_nsmul, add_zero]
    · rw [genAdd_fromW, ih (C + T) T]
      apply List.map_congr_left
      intro i _
      simp only [Function.comp_apply]
      rw [succ_nsmul]
      abel_nf

theorem natCast_fmod_N_toNat (m : Nat) : (((m : Int)).fmod N).toNat = m % Nn := by
  have h1 : ((m : Int)).fmod N = ((m % Nn : Nat) : Int) := by
    rw [Int.fmod_eq_emod _ N_pos.le, ← Nn_cast]
    push_cast
    rfl
  rw [h1]
  exact Int.toNat_natCast _

theorem gen_table_fromW (W : Nat) :
    Gen.gen_table W =
      (List.range (2 ^ (W - 1))).map
        (fun i => fromW ((2 * i + 1) • WeierstrassCurve.Affine.Point.some G_nonsingular)) := by
  have h2G : Gen.dbl (some (GX, GY)) =
      fromW (2 • WeierstrassCurve.Affine.Point.some G_nonsingular) := by
    rw [← fromW_G, genDbl_fromW, two_nsmul]
  have hnum : (1 : Nat) <<< (W - 1) = 2 ^ (W - 1) := by
    rw [Nat.shiftLeft_eq, one_mul]
  simp only [Gen.gen_table, hnum, ← fromW_G]
  rw [genDbl_fromW]
  rw [gen_tableLoop_fromW (2 ^ (W - 1)) (.some G_nonsingular)
    (WeierstrassCurve.Affine.Point.some G_nonsingular +
      WeierstrassCurve.Affine.Point.some G_nonsingular)]
  apply List.map_congr_left
  intro i _
  rw [show WeierstrassCurve.Affine.Point.some G_nonsingular +
      WeierstrassCurve.Affine.Point.some G_nonsingular =
      2 • WeierstrassCurve.Affine.Point.some G_nonsingular from (two_nsmul _).symm]
  rw [← mul_nsmul]
  rw [show WeierstrassCurve.Affine.Point.some G_nonsingular +
      (2 * i) • WeierstrassCurve.Affine.Point.some G_nonsingular =
      (1 + 2 * i) • WeierstrassCurve.Affine.Point.some G_nonsingular from by
    rw [add_nsmul, one_nsmul]]
  rw [show 1 + 2 * i = 2 * i + 1 from by omega]

/-- C6: for every W ≥ 1 the table has exactly 2^(W-1) points and entry i
is the (2i+1)-fold multiple of G, i.e. the value of scalarMul(2i+1, G). -/
theorem C6_gen_table (W : Nat) (_hW : 1 ≤ W) :
    (Gen.gen_table W).length = 2 ^ (W - 1) ∧
    ∀ i : Nat, i < 2 ^ (W - 1) →
      ∃ pt, (Gen.gen_table W)[i]? = some pt ∧
        scalar_mul ((2 * i + 1 : Nat) : Int) (some (GX, GY)) = .ok pt := by
  constructor
  · rw [gen_table_fromW]
    simp
  · intro i hi
    refine ⟨fromW ((2 * i + 1) • WeierstrassCurve.Affine.Point.some G_nonsingular), ?_, ?_⟩
    · rw [gen_table_fromW]
      rw [List.getElem?_map, List.getElem?_range hi]
      rfl
    · rw [← fromW_G, scalar_mul_fromW, natCast_fmod_N_toNat, ← nsmul_G_mod]

/-- Witness for C6 at W = 4, i = 1 (table entry 3·G). -/
theorem C6_gen_table_witness :
    ∃ pt, (Gen.gen_table 4)[1]? = some pt ∧
      scalar_mul ((2 * 1 + 1 : Nat) : Int) (some (GX, GY)) = .ok pt :=
  (C6_gen_table 4 (by norm_num)).2 1 (by norm_num)

/-! ## ECDSA: sign and verify -/

theorem fmod_eq_self_of_range {a m : Int} (h0 : 0 ≤ a) (h1 : a < m) : a.fmod m = a := by
  rw [Int.fmod_eq_emod _ (le_trans h0 h1.le)]
  exact Int.emod_eq_of_lt h0 h1

theorem fmod_fmod_N (a : Int) : (a.fmod N).fmod N = a.fmod N := by
  rw [Int.fmod_eq_emod _ N_pos.le, Int.fmod_eq_emod _ N_pos.le]
  exact Int.emod_emod_of_dvd a dvd_rfl

theorem mod_inv_N_ok_inv {a i : Int} (h : mod_inv a N = .ok i) :
    a.fmod N ≠ 0 ∧ i = modInvVal a N := by
  by_cases h0 : a.fmod N = 0
  · simp [mod_inv, h0] at h
  · rw [(mod_inv_N_ok a h0).1] at h
    injection h with hh
    exact ⟨h0, hh.symm⟩

theorem intCast_ne_zero_of_fmod_N {a : Int} (h0 : a.fmod N ≠ 0) : (a : ZMod Nn) ≠ 0 := by
  intro hz
  have hdvd : (Nn : Int) ∣ a := (ZMod.intCast_zmod_eq_zero_iff_dvd a Nn).mp hz
  rw [Nn_cast] at hdvd
  rw [Int.fmod_eq_emod _ N_pos.le] at h0
  exact h0 (Int.emod_eq_zero_of_dvd hdvd)

theorem natCast_toNat_zmodN {a : Int} (ha : 0 ≤ a) : ((a.toNat : Nat) : ZMod Nn) = (a : ZMod Nn) := by
  rw [← Int.cast_natCast, Int.toNat_of_nonneg ha]

theorem exbind_ok_inv {ε α β : Type} {x : Except ε α} {f : α → Except ε β} {b : β}
    (h : x >>= f = .ok b) : ∃ a, x = .ok a ∧ f a = .ok b := by
  cases x with
  | error e => rw [exbind_err] at h; exact Except.noConfusion h
  | ok a => rw [exbind_ok] at h; exact ⟨a, rfl, h⟩

theorem rfcLoop_range :
    ∀ (fuel : Nat) (K V : Bytes) (k : Int), rfcLoop fuel K V = .ok k → 1 ≤ k ∧ k < N := by
  intro fuel
  induction fuel with
  | zero => intro K V k h; exact Except.noConfusion h
  | succ fuel ih =>
    intro K V k h
    simp only [rfcLoop] at h
    by_cases hc : 1 ≤ bits2int (fillT rolen K V []).1 ∧ bits2int (fillT rolen K V []).1 < Nn
    · rw [if_pos hc] at h
      have hk := ok_inj h
      constructor
      · rw [← hk]; exact_mod_cast hc.1
      · rw [← hk, ← Nn_cast]; exact_mod_cast hc.2
    · rw [if_neg hc] at h
      exact ih _ _ _ h

theorem rfc6979_range (d : Int) (h1 : Bytes) (fuel : Nat) (k : Int)
    (h : rfc6979_k d h1 fuel = .ok k) : 1 ≤ k ∧ k < N := by
  simp only [rfc6979_k] at h
  exact rfcLoop_range _ _ _ _ h

theorem ecdsa_sign_inv {fuel : Nat} {d : Int} {m : Bytes} {r s : Int}
    (h : ecdsa_sign fuel d m = .ok (r, s)) :
    (1 ≤ d ∧ d < N) ∧
    ∃ k w Rx Ry : Int,
      rfc6979_k d (sha256 m) fuel = .ok k ∧
      scalar_mul k (some (GX, GY)) = .ok (some (Rx, Ry)) ∧
      r = Rx.fmod N ∧ ¬ r = 0 ∧
      mod_inv k N = .ok w ∧
      s = (w * (((fromBytesBE (sha256 m) : Nat) : Int).fmod N + r * d)).fmod N ∧
      ¬ s = 0 := by
  by_cases hd : 1 ≤ d ∧ d < N
  · refine ⟨hd, ?_⟩
    simp only [ecdsa_sign, if_neg (not_not_intro hd)] at h
    obtain ⟨k, hk, h⟩ := exbind_ok_inv h
    obtain ⟨R, hR, h⟩ := exbind_ok_inv h
    cases R with
    | none => exact Except.noConfusion h
    | some Rxy =>
      obtain ⟨Rx, Ry⟩ := Rxy
      simp only [] at h
      by_cases hr0 : Rx.fmod N = 0
      · rw [if_pos hr0] at h
        exact Except.noConfusion h
      · rw [if_neg hr0] at h
        obtain ⟨w, hw, h⟩ := exbind_ok_inv h
        by_cases hs0 :
            (w * (((fromBytesBE (sha256 m) : Nat) : Int).fmod N + Rx.fmod N * d)).fmod N = 0
        · rw [if_pos hs0] at h
          exact Except.noConfusion h
        · rw [if_neg hs0] at h
          have hrs := ok_inj h
          rw [Prod.mk.injEq] at hrs
          obtain ⟨hr1, hs1⟩ := hrs
          subst hr1
          subst hs1
          exact ⟨k, w, Rx, Ry, hk, hR, rfl, hr0, hw, rfl, hs0⟩
  · simp only [ecdsa_sign, if_pos hd] at h
    exact Except.noConfusion h

theorem ecdsa_sign_eval (fuel : Nat) (d : Int) (m : Bytes) (k w r s Rx Ry : Int)
    (hd : 1 ≤ d ∧ d < N)
    (hk : rfc6979_k d (sha256 m) fuel = .ok k)
    (hR : scalar_mul k (some (GX, GY)) = .ok (some (Rx, Ry)))
    (hr : Rx.fmod N = r) (hr0 : ¬ r = 0)
    (hw : mod_inv k N = .ok w)
    (hs : (w * (((fromBytesBE (sha256 m) : Nat) : Int).fmod N + r * d)).fmod N = s)
    (hs0 : ¬ s = 0) :
    ecdsa_sign fuel d m = .ok (r, s) := by
  simp only [ecdsa_sign, if_neg (not_not_intro hd), hk, exbind_ok, hR, exbind_ok]
  rw [hr]
  rw [if_neg hr0]
  simp only [hw, exbind_ok]
  rw [hs, if_neg hs0]

theorem ecdsa_verify_eval (pub : Point) (m : Bytes) (r s w : Int) (P1 P2 : Point) (Rx Ry : Int)
    (hg1 : ¬ (pub = none ∨ ¬ (is_on_curve pub = true)))
    (hg2 : 1 ≤ r ∧ r < N ∧ 1 ≤ s ∧ s < N)
    (hw : mod_inv s N = .ok w)
    (hP1 : scalar_mul ((((fromBytesBE (sha256 m) : Nat) : Int).fmod N * w).fmod N)
      (some (GX, GY)) = .ok P1)
    (hP2 : scalar_mul ((r * w).fmod N) pub = .ok P2)
    (hX : point_add P1 P2 = .ok (some (Rx, Ry)))
    (hr : Rx.fmod N = r) :
    ecdsa_verify pub m (r, s) = .ok true := by
  simp only [ecdsa_verify, if_neg hg1, if_neg (not_not_intro hg2), hw, exbind_ok, hP1,
    exbind_ok, hP2, exbind_ok, hX, exbind_ok]
  rw [decide_eq_true hr]

theorem nsmul_G_congr {a b : Nat} (h : a ≡ b [MOD Nn]) :
    a • (WeierstrassCurve.Affine.Point.some G_nonsingular) =
      b • (WeierstrassCurve.Affine.Point.some G_nonsingular) := by
  rw [nsmul_G_mod a, nsmul_G_mod b]
  exact congrArg (fun t => t • (WeierstrassCurve.Affine.Point.some G_nonsingular)) h

theorem ecdsa_u_congr (d k r z s : Int) (hkf : k.fmod N ≠ 0) (hk0 : 0 ≤ k) (hd0 : 0 ≤ d)
    (hs : s = (modInvVal k N * (z + r * d)).fmod N) (hs0 : ¬ s = 0) :
    ((z * modInvVal s N).fmod N).toNat + d.toNat * ((r * modInvVal s N).fmod N).toNat ≡
      k.toNat [MOD Nn] := by
  have hsb : 0 ≤ s ∧ s < N := by rw [hs]; exact fmod_N_bounds _
  have hsf : s.fmod N = s := fmod_eq_self_of_range hsb.1 hsb.2
  have hsf0 : s.fmod N ≠ 0 := by rw [hsf]; exact hs0
  have hkc : ((k : Int) : ZMod Nn) ≠ 0 := intCast_ne_zero_of_fmod_N hkf
  have hsc : ((s : Int) : ZMod Nn) ≠ 0 := intCast_ne_zero_of_fmod_N hsf0
  have hwk : ((modInvVal k N : Int) : ZMod Nn) = ((k : Int) : ZMod Nn)⁻¹ :=
    modInvVal_N_cast k hkf
  have hws : ((modInvVal s N : Int) : ZMod Nn) = ((s : Int) : ZMod Nn)⁻¹ :=
    modInvVal_N_cast s hsf0
  have hsz : ((s : Int) : ZMod Nn) =
      ((k : Int) : ZMod Nn)⁻¹ * ((z : ZMod Nn) + (r : ZMod Nn) * (d : ZMod Nn)) := by
    rw [hs, intCast_fmod_N]
    push_cast
    rw [hwk]
  have hzrd : (z : ZMod Nn) + (r : ZMod Nn) * (d : ZMod Nn) =
      ((k : Int) : ZMod Nn) * ((s : Int) : ZMod Nn) := by
    rw [hsz, ← mul_assoc, mul_inv_cancel₀ hkc, one_mul]
  have hu1c : (((z * modInvVal s N).fmod N : Int) : ZMod Nn) =
      (z : ZMod Nn) * ((s : Int) : ZMod Nn)⁻¹ := by
    rw [intCast_fmod_N]
    push_cast
    rw [hws]
  have hu2c : (((r * modInvVal s N).fmod N : Int) : ZMod Nn) =
      (r : ZMod Nn) * ((s : Int) : ZMod Nn)⁻¹ := by
    rw [intCast_fmod_N]
    push_cast
    rw [hws]
  have hu10 : 0 ≤ (z * modInvVal s N).fmod N := (fmod_N_bounds _).1
  have hu20 : 0 ≤ (r * modInvVal s N).fmod N := (fmod_N_bounds _).1
  have hcast : ((((z * modInvVal s N).fmod N).toNat +
      d.toNat * ((r * modInvVal s N).fmod N).toNat : Nat) : ZMod Nn) =
      ((k.toNat : Nat) : ZMod Nn) := by
    push_cast
    rw [natCast_toNat_zmodN hu10, natCast_toNat_zmodN hu20, natCast_toNat_zmodN hd0,
      natCast_toNat_zmodN hk0]
    rw [hu1c, hu2c]
    calc (z : ZMod Nn) * ((s : Int) : ZMod Nn)⁻¹ +
          (d : ZMod Nn) * ((r : ZMod Nn) * ((s : Int) : ZMod Nn)⁻¹)
        = ((z : ZMod Nn) + (r : ZMod Nn) * (d : ZMod Nn)) * ((s : Int) : ZMod Nn)⁻¹ := by ring
      _ = (((k : Int) : ZMod Nn) * ((s : Int) : ZMod Nn)) * ((s : Int) : ZMod Nn)⁻¹ := by
          rw [hzrd]
      _ = ((k : Int) : ZMod Nn) := by rw [mul_assoc, mul_inv_cancel₀ hsc, mul_one]
  exact (ZMod.natCast_eq_natCast_iff _ _ _).mp hcast

/-- C8: signing is deterministic: two calls of sign with the same private
key and the same message digest — with no external randomness consulted —
return identical signatures (r, s). -/
theorem C8_sign_deterministic (fuel : Nat) (d1 d2 : Int) (m1 m2 : Bytes) (s1 s2 : Int × Int)
    (hd : d1 = d2) (hm : sha256 m1 = sha256 m2)
    (h1 : ecdsa_sign fuel d1 m1 = .ok s1) (h2 : ecdsa_sign fuel d2 m2 = .ok s2) :
    s1 = s2 := by
  subst hd
  have he : ecdsa_sign fuel d1 m1 = ecdsa_sign fuel d1 m2 := by
    simp only [ecdsa_sign, hm]
  rw [he, h2] at h1
  exact (ok_inj h1).symm


/-- C7: ecdsa_verify never raises: on every input it resolves to a
boolean; it returns false whenever the public key is infinity or off the
curve, whenever r or s lies outside [1, N-1], and whenever the combined
point X = u1*G + u2*pub is infinity. -/
theorem C7_verify_total (pub : Point) (m : Bytes) (sig : Int × Int) :
    (∃ b, ecdsa_verify pub m sig = .ok b) ∧
    ((pub = none ∨ is_on_curve pub = false) → ecdsa_verify pub m sig = .ok false) ∧
    (¬ (1 ≤ sig.1 ∧ sig.1 < N ∧ 1 ≤ sig.2 ∧ sig.2 < N) → ecdsa_verify pub m sig = .ok false) ∧
    (∀ w P1 P2, mod_inv sig.2 N = .ok w →
      scalar_mul ((((fromBytesBE (sha256 m) : Nat) : Int).fmod N * w).fmod N)
        (some (GX, GY)) = .ok P1 →
      scalar_mul ((sig.1 * w).fmod N) pub = .ok P2 →
      point_add P1 P2 = .ok none →
      ecdsa_verify pub m sig = .ok false) := by
  by_cases hg1 : pub = none ∨ ¬ (is_on_curve pub = true)
  · have hfalse : ecdsa_verify pub m sig = .ok false := by
      simp only [ecdsa_verify, if_pos hg1]
    exact ⟨⟨false, hfalse⟩, fun _ => hfalse, fun _ => hfalse, fun _ _ _ _ _ _ _ => hfalse⟩
  · by_cases hg2 : 1 ≤ sig.1 ∧ sig.1 < N ∧ 1 ≤ sig.2 ∧ sig.2 < N
    · have honc : is_on_curve pub = true := not_not.mp (not_or.mp hg1).2
      obtain ⟨Q, hQ⟩ := exists_fromW honc
      have hs0 : sig.2.fmod N ≠ 0 := by
        obtain ⟨h1, h2, h3, h4⟩ := hg2
        rw [fmod_eq_self_of_range (by omega) h4]
        omega
      have hmi := (mod_inv_N_ok sig.2 hs0).1
      obtain ⟨P1w, hP1w⟩ : ∃ W1,
          scalar_mul ((((fromBytesBE (sha256 m) : Nat) : Int).fmod N * modInvVal sig.2 N).fmod N)
            (some (GX, GY)) = .ok (fromW W1) :=
        ⟨_, by rw [← fromW_G, scalar_mul_fromW]⟩
      obtain ⟨P2w, hP2w⟩ : ∃ W2,
          scalar_mul ((sig.1 * modInvVal sig.2 N).fmod N) pub = .ok (fromW W2) :=
        ⟨_, by rw [← hQ, scalar_mul_fromW]⟩
      have hXadd : point_add (fromW P1w) (fromW P2w) = .ok (fromW (P1w + P2w)) :=
        fromW_add _ _
      have hcon2 : ¬ (pub = none ∨ is_on_curve pub = false) := by
        rw [not_or]
        refine ⟨(not_or.mp hg1).1, ?_⟩
        rw [honc]
        exact fun hft => Bool.noConfusion hft
      cases hF : fromW (P1w + P2w) with
      | none =>
        have hrun : ecdsa_verify pub m sig = .ok false := by
          simp only [ecdsa_verify, if_neg hg1, if_neg (not_not_intro hg2), hmi, exbind_ok,
            hP1w, exbind_ok, hP2w, exbind_ok, hXadd, exbind_ok, hF]
        exact ⟨⟨false, hrun⟩, fun hcon => absurd hcon hcon2, fun hcon => absurd hg2 hcon,
          fun _ _ _ _ _ _ _ => hrun⟩
      | some Xxy =>
        have hrun : ecdsa_verify pub m sig = .ok (decide (Xxy.1.fmod N = sig.1)) := by
          simp only [ecdsa_verify, if_neg hg1, if_neg (not_not_intro hg2), hmi, exbind_ok,
            hP1w, exbind_ok, hP2w, exbind_ok, hXadd, exbind_ok, hF]
        refine ⟨⟨_, hrun⟩, fun hcon => absurd hcon hcon2, fun hcon => absurd hg2 hcon,
          fun w P1 P2 hw hp1 hp2 hx => ?_⟩
        have hww : modInvVal sig.2 N = w := ok_inj (hmi.symm.trans hw)
        subst hww
        have e1 : fromW P1w = P1 := ok_inj (hP1w.symm.trans hp1)
        have e2 : fromW P2w = P2 := ok_inj (hP2w.symm.trans hp2)
        rw [← e1, ← e2] at hx
        have hnone : fromW (P1w + P2w) = none := ok_inj (hXadd.symm.trans hx)
        rw [hF] at hnone
        exact Option.noConfusion hnone
    · have hfalse : ecdsa_verify pub m sig = .ok false := by
        simp only [ecdsa_verify, if_neg hg1, if_pos hg2]
      exact ⟨⟨false, hfalse⟩, fun _ => hfalse, fun _ => hfalse, fun _ _ _ _ _ _ _ => hfalse⟩

/-- Witness for C7: the verifier applied to an infinite public key. -/
theorem C7_verify_total_witness : ecdsa_verify none [] (0, 0) = .ok false :=
  (C7_verify_total none [] (0, 0)).2.1 (Or.inl rfl)

/-- C1: for every private key d with 1 <= d < N and every message m,
verifying a freshly produced signature succeeds:
verify(scalarMul(d, G), m, sign(d, m)) returns true. -/
theorem C1_sign_verify_roundtrip (fuel : Nat) (d : Int) (m : Bytes) (pub : Point) (r s : Int)
    (hd1 : 1 ≤ d) (hd2 : d < N)
    (hpub : scalar_mul d (some (GX, GY)) = .ok pub)
    (hsig : ecdsa_sign fuel d m = .ok (r, s)) :
    ecdsa_verify pub m (r, s) = .ok true := by
  obtain ⟨hd, k, w, Rx, Ry, hk, hR, hr, hr0, hw, hs, hs0⟩ := ecdsa_sign_inv hsig
  obtain ⟨hk1, hk2⟩ := rfc6979_range d (sha256 m) fuel k hk
  have hkm : k.fmod N = k := fmod_eq_self_of_range (by omega) hk2
  have hkf : k.fmod N ≠ 0 := by rw [hkm]; omega
  obtain ⟨-, hwv⟩ := mod_inv_N_ok_inv hw
  subst hwv
  have hdm : d.fmod N = d := fmod_eq_self_of_range (by omega) hd2
  have hRG : scalar_mul k (some (GX, GY)) =
      .ok (fromW (k.toNat • WeierstrassCurve.Affine.Point.some G_nonsingular)) := by
    rw [← fromW_G, scalar_mul_fromW, hkm]
  have hRW : fromW (k.toNat • WeierstrassCurve.Affine.Point.some G_nonsingular) =
      some (Rx, Ry) := ok_inj (hRG.symm.trans hR)
  have hpubW : pub = fromW (d.toNat • WeierstrassCurve.Affine.Point.some G_nonsingular) := by
    have h2 : scalar_mul d (some (GX, GY)) =
        .ok (fromW (d.toNat • WeierstrassCurve.Affine.Point.some G_nonsingular)) := by
      rw [← fromW_G, scalar_mul_fromW, hdm]
    exact (ok_inj (h2.symm.trans hpub)).symm
  have hNnN : ((Nn : Nat) : Int) = N := Nn_cast
  have hdn : ¬ Nn ∣ d.toNat := by
    intro hdvd
    have hle : Nn ≤ d.toNat := Nat.le_of_dvd (by omega) hdvd
    omega
  have hpn : pub ≠ none := by
    rw [hpubW, Ne, fromW_eq_none_iff]
    intro h0
    exact hdn ((nsmul_G_eq_zero_iff _).mp h0)
  have honc : is_on_curve pub = true := by rw [hpubW]; exact fromW_onCurve _
  have hg1 : ¬ (pub = none ∨ ¬ (is_on_curve pub = true)) := by
    rw [not_or]
    exact ⟨hpn, not_not_intro honc⟩
  have hrb : 0 ≤ r ∧ r < N := by rw [hr]; exact fmod_N_bounds Rx
  have hsb : 0 ≤ s ∧ s < N := by rw [hs]; exact fmod_N_bounds _
  have hg2 : 1 ≤ r ∧ r < N ∧ 1 ≤ s ∧ s < N := by
    refine ⟨by omega, hrb.2, by omega, hsb.2⟩
  have hsf0 : s.fmod N ≠ 0 := by
    rw [fmod_eq_self_of_range hsb.1 hsb.2]
    exact hs0
  have hmi := (mod_inv_N_ok s hsf0).1
  have hP1 : scalar_mul
      ((((fromBytesBE (sha256 m) : Nat) : Int).fmod N * modInvVal s N).fmod N)
      (some (GX, GY)) =
      .ok (fromW (((((fromBytesBE (sha256 m) : Nat) : Int).fmod N * modInvVal s N).fmod N).toNat •
        WeierstrassCurve.Affine.Point.some G_nonsingular)) := by
    rw [← fromW_G, scalar_mul_fromW, fmod_fmod_N]
  have hP2 : scalar_mul ((r * modInvVal s N).fmod N) pub =
      .ok (fromW (((r * modInvVal s N).fmod N).toNat •
        (d.toNat • WeierstrassCurve.Affine.Point.some G_nonsingular))) := by
    rw [hpubW, scalar_mul_fromW, fmod_fmod_N]
  have hcong := ecdsa_u_congr d k r (((fromBytesBE (sha256 m) : Nat) : Int).fmod N) s
    hkf (by omega) (by omega) hs hs0
  have hsum : ((((fromBytesBE (sha256 m) : Nat) : Int).fmod N * modInvVal s N).fmod N).toNat •
        WeierstrassCurve.Affine.Point.some G_nonsingular +
      ((r * modInvVal s N).fmod N).toNat •
        (d.toNat • WeierstrassCurve.Affine.Point.some G_nonsingular) =
      k.toNat • WeierstrassCurve.Affine.Point.some G_nonsingular := by
    rw [← mul_nsmul, ← add_nsmul]
    exact nsmul_G_congr hcong
  have hX : point_add
      (fromW (((((fromBytesBE (sha256 m) : Nat) : Int).fmod N * modInvVal s N).fmod N).toNat •
        WeierstrassCurve.Affine.Point.some G_nonsingular))
      (fromW (((r * modInvVal s N).fmod N).toNat •
        (d.toNat • WeierstrassCurve.Affine.Point.some G_nonsingular))) =
      .ok (some (Rx, Ry)) := by
    rw [fromW_add, hsum, hRW]
  exact ecdsa_verify_eval pub m r s (modInvVal s N) _ _ Rx Ry hg1 hg2 hmi hP1 hP2 hX hr.symm


set_option maxHeartbeats 12000000 in
theorem sign_k_scalar_mul :
    scalar_mul 33178869521044898558431115698741247608950701395235088304647897200090796526517
      (some (GX, GY)) =
    .ok (some (34683635357052628905255407829776351531197838376346376603522559621877929170318,
      18326455713600057484860995197194799842299090562101520805464495492320635280452)) := by
  rw [scalar_mul_G_ladder]
  have hc : genLadder
      (((33178869521044898558431115698741247608950701395235088304647897200090796526517 :
        Int).fmod N).toNat + 1)
      ((33178869521044898558431115698741247608950701395235088304647897200090796526517 :
        Int).fmod N).toNat
      none (some (GX, GY)) =
      some (34683635357052628905255407829776351531197838376346376603522559621877929170318,
        18326455713600057484860995197194799842299090562101520805464495492320635280452) := by
    decide
  rw [hc]

set_option maxHeartbeats 12000000 in
theorem pub_scalar_mul :
    scalar_mul 8234104123542484907464753389986470027747615539807086285208644522913395839540
      (some (GX, GY)) =
    .ok (some (51720120122759650284627167156829690189149117338316132551399892781165914122528,
      21408552502901961070908024323212556908626449117798715589414915059642209857877)) := by
  rw [scalar_mul_G_ladder]
  have hc : genLadder
      (((8234104123542484907464753389986470027747615539807086285208644522913395839540 :
        Int).fmod N).toNat + 1)
      ((8234104123542484907464753389986470027747615539807086285208644522913395839540 :
        Int).fmod N).toNat
      none (some (GX, GY)) =
      some (51720120122759650284627167156829690189149117338316132551399892781165914122528,
        21408552502901961070908024323212556908626449117798715589414915059642209857877) := by
    decide
  rw [hc]

set_option maxHeartbeats 12000000 in
theorem sign_test_vector :
    ecdsa_sign 1 8234104123542484907464753389986470027747615539807086285208644522913395839540
      [115, 101, 99, 112, 50, 53, 54, 107, 49, 32, 102, 112, 103, 97, 32, 116, 101, 115, 116] =
    .ok (34683635357052628905255407829776351531197838376346376603522559621877929170318,
      17493246649681622335901873567526184081771184900954116551277589333705887915022) :=
  ecdsa_sign_eval 1
    8234104123542484907464753389986470027747615539807086285208644522913395839540
    [115, 101, 99, 112, 50, 53, 54, 107, 49, 32, 102, 112, 103, 97, 32, 116, 101, 115, 116]
    33178869521044898558431115698741247608950701395235088304647897200090796526517
    16649617062031932231776144767476236396381482290174256000220729120215074366508
    34683635357052628905255407829776351531197838376346376603522559621877929170318
    17493246649681622335901873567526184081771184900954116551277589333705887915022
    34683635357052628905255407829776351531197838376346376603522559621877929170318
    18326455713600057484860995197194799842299090562101520805464495492320635280452
    (by decide) (by decide) sign_k_scalar_mul (by decide) (by decide) (by decide)
    (by decide) (by decide)

/-- Witness for C8 at the test suite's private key and message. -/
theorem C8_sign_deterministic_witness :
    ecdsa_sign 1 8234104123542484907464753389986470027747615539807086285208644522913395839540
        [115, 101, 99, 112, 50, 53, 54, 107, 49, 32, 102, 112, 103, 97, 32, 116, 101, 115, 116] =
      .ok (34683635357052628905255407829776351531197838376346376603522559621877929170318,
        17493246649681622335901873567526184081771184900954116551277589333705887915022) ∧
    ((34683635357052628905255407829776351531197838376346376603522559621877929170318,
        17493246649681622335901873567526184081771184900954116551277589333705887915022) :
        Int × Int) =
      (34683635357052628905255407829776351531197838376346376603522559621877929170318,
        17493246649681622335901873567526184081771184900954116551277589333705887915022) :=
  ⟨sign_test_vector,
    C8_sign_deterministic 1
      8234104123542484907464753389986470027747615539807086285208644522913395839540
      8234104123542484907464753389986470027747615539807086285208644522913395839540
      [115, 101, 99, 112, 50, 53, 54, 107, 49, 32, 102, 112, 103, 97, 32, 116, 101, 115, 116]
      [115, 101, 99, 112, 50, 53, 54, 107, 49, 32, 102, 112, 103, 97, 32, 116, 101, 115, 116]
      _ _ rfl rfl sign_test_vector sign_test_vector⟩

/-- Witness for C1 at the test suite's private key and message. -/
theorem C1_sign_verify_roundtrip_witness :
    ecdsa_verify
      (some (51720120122759650284627167156829690189149117338316132551399892781165914122528,
        21408552502901961070908024323212556908626449117798715589414915059642209857877))
      [115, 101, 99, 112, 50, 53, 54, 107, 49, 32, 102, 112, 103, 97, 32, 116, 101, 115, 116]
      (34683635357052628905255407829776351531197838376346376603522559621877929170318,
        17493246649681622335901873567526184081771184900954116551277589333705887915022) =
    .ok true :=
  C1_sign_verify_roundtrip 1
    8234104123542484907464753389986470027747615539807086285208644522913395839540
    [115, 101, 99, 112, 50, 53, 54, 107, 49, 32, 102, 112, 103, 97, 32, 116, 101, 115, 116]
    (some (51720120122759650284627167156829690189149117338316132551399892781165914122528,
      21408552502901961070908024323212556908626449117798715589414915059642209857877))
    34683635357052628905255407829776351531197838376346376603522559621877929170318
    17493246649681622335901873567526184081771184900954116551277589333705887915022
    (by decide) (by decide) pub_scalar_mul sign_test_vector

end Secp
